import Mathlib

/-
Verification development for the ParaDance ranking-quality metric engine.

The Python source is shallowly embedded in Lean:
  * numpy / pandas float arrays become `List ℚ`; a float produced by a
    division that may hit a zero denominator becomes `PFloat`, which keeps
    the IEEE special values (nan, +inf, -inf) explicit;
  * `pandas.DataFrame.sort_values` is modelled by a deterministic stable
    sort (`List.insertionSort`), matching the tie-breaking the project
    documents (stable relative to input row order);
  * `numpy.quantile` (linear interpolation) and `numpy.digitize`
    (right=False, i.e. count of cut points that are <= x) are embedded
    over ℚ;
  * the mutable `Calculator` object of `tau_evaluator.py` becomes an
    explicit state record `CalcState` (dataframe columns plus the
    bin-mapping cache), and `calculate_tau` becomes a state-passing
    function returning (value, new state).
-/

namespace Paradance

/-- IEEE-style result of a float computation over rationals: either a
finite rational value or one of the special values produced by a zero
denominator. -/
inductive PFloat where
  | val (q : ℚ)
  | nan
  | inf
  | ninf
deriving DecidableEq

/-- Division of Python floats, with the IEEE zero-denominator behaviour:
`0/0 = nan`, `x/0 = ±inf` for `x ≠ 0`, and ordinary rational division
otherwise. -/
def fdiv (a b : ℚ) : PFloat :=
  if b = 0 then (if a = 0 then PFloat.nan else if 0 < a then PFloat.inf else PFloat.ninf)
  else PFloat.val (a / b)

/-- Python `int(x)` on a float: truncation toward zero. -/
def intTrunc (q : ℚ) : ℤ :=
  if 0 ≤ q then ⌊q⌋ else ⌈q⌉

/-- `np.linspace(0, 1, num)`: `num` evenly spaced points from 0 to 1
(`[0]` when `num = 1`, `[]` when `num = 0`). -/
def np_linspace01 (num : ℕ) : List ℚ :=
  if num = 1 then [0] else (List.range num).map (fun i : ℕ => (i : ℚ) / ((num : ℚ) - 1))

/-- `np.quantile(a, q)` with the default linear interpolation: with `s`
the sorted data and `h = q * (len - 1)`, interpolate between `s[⌊h⌋]`
and the next element. -/
def np_quantile (a : List ℚ) (q : ℚ) : ℚ :=
  let s := List.insertionSort (· ≤ ·) a
  let m := a.length
  let h : ℚ := q * ((m : ℚ) - 1)
  let lo : ℕ := (⌊h⌋).toNat
  let gam : ℚ := h - (lo : ℚ)
  s.getD lo 0 + gam * (s.getD (min (lo + 1) (m - 1)) 0 - s.getD lo 0)

/-- `map_to_bins` from `evaluation/tau_evaluator.py`: equal-frequency
binning with bin 0 reserved for zero values.  `np.digitize(x, cuts)`
(monotone `cuts`, right=False) is the number of cut points `c ≤ x`,
embedded as `countP`; the scatter-assignment
`bins[data != 0] = non_zero_bins + 1` into `np.zeros_like(data)` is
embedded as a positionwise map over the original column. -/
def nonZeroPart (data : List ℚ) : List ℚ := data.filter (fun v => v ≠ 0)

/-- The quantile cut points of `map_to_bins`: clamp the requested bin
count to the non-zero subset length
(`num_bins = min(num_bins, len(non_zero_data))`), take the interior
points of `np.linspace(0, 1, num_bins + 1)` and evaluate the quantiles
of the non-zero data there. -/
def binCuts (non_zero_data : List ℚ) (num_bins : ℤ) : List ℚ :=
  (((np_linspace01 ((min num_bins (non_zero_data.length : ℤ)) + 1).toNat).drop 1).dropLast).map
    (np_quantile non_zero_data)

def map_to_bins (data : List ℚ) (num_bins : ℤ) : List ℚ :=
  if data.length = 0 then []
  else if data.all (fun v => v = 0) then List.replicate data.length 0
  else
    data.map (fun v => if v = 0 then 0
      else (((binCuts (nonZeroPart data) num_bins).countP (fun c => c ≤ v) : ℕ) : ℚ) + 1)

/-- Number of distinct non-zero entries of a column. -/
def distinctNonzeroCount (l : List ℚ) : ℕ :=
  ((l.filter (fun v => v ≠ 0)).dedup).length

/-- Modelled from the spec: the `evaluation_preprocessor` decorator of
`base_evaluator.py` (a file outside these sources) prepares
`calculator.evaluated_dataframe` before each evaluator runs; per the
spec, an absent mask column means no filtering, so with
`mask_column = None` (the only case the theorems below use) it is the
identity on the dataframe. -/
def evaluation_preprocessor {α : Type} (df : List α) : List α := df

/-- The sort key of `df.sort_values(pd_column, ascending=False)` on rows
modelled as (score, target) pairs. -/
def byScoreDesc : (ℚ × ℚ) → (ℚ × ℚ) → Prop := fun a b => b.1 ≤ a.1

instance : DecidableRel byScoreDesc :=
  fun a b => inferInstanceAs (Decidable (b.1 ≤ a.1))

instance : IsTotal (ℚ × ℚ) byScoreDesc := ⟨fun a b => le_total b.1 a.1⟩

instance : IsTrans (ℚ × ℚ) byScoreDesc := ⟨fun _ _ _ h1 h2 => le_trans h2 h1⟩

def sortedByScore (df : List (ℚ × ℚ)) : List (ℚ × ℚ) :=
  List.insertionSort byScoreDesc df

/-- `int(len(df) * head_percentage)`. -/
def topRowsCount {α : Type} (df : List α) (hp : ℚ) : ℤ :=
  intTrunc ((df.length : ℚ) * hp)

/-- `df.iloc[:n]` for an integer `n`: the first `n` rows when `n ≥ 0`,
all but the last `-n` rows when `n < 0`. -/
def ilocHead {α : Type} (n : ℤ) (l : List α) : List α :=
  if 0 ≤ n then l.take n.toNat else l.take (l.length - (-n).toNat)

/-- `calculate_top_coverage` from `evaluation/top_coverage_evaluator.py`
(rows as (score, target) pairs, mask column absent): sort by score
descending, take the first `int(len(df) * head_percentage)` rows, and
divide their target sum by the total target sum. -/
def calculate_top_coverage (df : List (ℚ × ℚ)) (head_percentage : Option ℚ) : PFloat :=
  fdiv
    (((ilocHead
        (topRowsCount (sortedByScore (evaluation_preprocessor df))
          (head_percentage.getD (5 / 100)))
        (sortedByScore (evaluation_preprocessor df))).map Prod.snd).sum)
    (((sortedByScore (evaluation_preprocessor df)).map Prod.snd).sum)

/-- The vector `~df_sorted[target_column].duplicated()`: true exactly at
the first occurrence of each value, in order. -/
def firstOccAux (seen : List ℚ) : List ℚ → List Bool
  | [] => []
  | v :: rest => (if v ∈ seen then false else true) :: firstOccAux (v :: seen) rest

def firstOccFlags (l : List ℚ) : List Bool := firstOccAux [] l

/-- `calculate_distinct_top_coverage` from
`evaluation/top_coverage_evaluator.py` (mask column absent):
`nunique` of the target column is the number of distinct values; the
numerator counts first occurrences of target values within the first
`int(len(df) * head_percentage)` rows after sorting by score
descending. -/
def calculate_distinct_top_coverage (df : List (ℚ × ℚ)) (head_percentage : Option ℚ) :
    PFloat :=
  fdiv
    (((ilocHead (topRowsCount (evaluation_preprocessor df) (head_percentage.getD (5 / 100)))
        (firstOccFlags ((sortedByScore (evaluation_preprocessor df)).map Prod.snd))).countP
          id : ℕ) : ℚ)
    ((((evaluation_preprocessor df).map Prod.snd).dedup.length : ℕ) : ℚ)

/-- A dataframe row for the grouped top-N selector: a group-column
value, a sort-column value, the target-column value and the original
row index (`reset_index` keeps row identity). -/
structure TRow (G V : Type) where
  gkey : G
  vkey : V
  tval : ℚ
  rid : ℕ
deriving DecidableEq

/-- The direction of one sort key under the `ascending` flag. -/
def dirLe {α : Type} [LinearOrder α] (ascending : Bool) (x y : α) : Prop :=
  if ascending then x ≤ y else y ≤ x

def dirLt {α : Type} [LinearOrder α] (ascending : Bool) (x y : α) : Prop :=
  if ascending then x < y else y < x

/-- The key of `sort_values(group_cols + val_cols, ascending=...)`:
lexicographic on (group key, value key), both in the requested
direction. -/
def lexr {G V : Type} [LinearOrder G] [LinearOrder V] (ascending : Bool) :
    TRow G V → TRow G V → Prop :=
  fun a b => dirLt ascending a.gkey b.gkey ∨ (a.gkey = b.gkey ∧ dirLe ascending a.vkey b.vkey)

/-- The key of sorting one group by the value columns alone. -/
def valr {G V : Type} [LinearOrder V] (ascending : Bool) : TRow G V → TRow G V → Prop :=
  fun a b => dirLe ascending a.vkey b.vkey

instance {α : Type} [LinearOrder α] (ascending : Bool) :
    DecidableRel (dirLe (α := α) ascending) := fun x y => by
  unfold dirLe
  infer_instance

instance {α : Type} [LinearOrder α] (ascending : Bool) :
    DecidableRel (dirLt (α := α) ascending) := fun x y => by
  unfold dirLt
  infer_instance

instance {G V : Type} [LinearOrder G] [LinearOrder V] (ascending : Bool) :
    DecidableRel (lexr (G := G) (V := V) ascending) := fun a b => by
  unfold lexr
  infer_instance

instance {G V : Type} [LinearOrder G] [LinearOrder V] (ascending : Bool) :
    DecidableRel (valr (G := G) (V := V) ascending) := fun a b => by
  unfold valr dirLe
  infer_instance

instance {G V : Type} [LinearOrder G] [LinearOrder V] (ascending : Bool) :
    IsTotal (TRow G V) (lexr ascending) := by
  constructor
  intro a b
  unfold lexr dirLt dirLe
  cases ascending
  · simp only [Bool.false_eq_true, if_false]
    rcases lt_trichotomy a.gkey b.gkey with h | h | h
    · exact Or.inr (Or.inl h)
    · rcases le_total a.vkey b.vkey with h2 | h2
      · exact Or.inr (Or.inr ⟨h.symm, h2⟩)
      · exact Or.inl (Or.inr ⟨h, h2⟩)
    · exact Or.inl (Or.inl h)
  · simp only [if_true]
    rcases lt_trichotomy a.gkey b.gkey with h | h | h
    · exact Or.inl (Or.inl h)
    · rcases le_total a.vkey b.vkey with h2 | h2
      · exact Or.inl (Or.inr ⟨h, h2⟩)
      · exact Or.inr (Or.inr ⟨h.symm, h2⟩)
    · exact Or.inr (Or.inl h)

instance {G V : Type} [LinearOrder G] [LinearOrder V] (ascending : Bool) :
    IsTrans (TRow G V) (lexr ascending) := by
  constructor
  intro a b c hab hbc
  unfold lexr dirLt dirLe at hab hbc ⊢
  cases ascending
  · simp only [Bool.false_eq_true, if_false] at hab hbc ⊢
    rcases hab with h1 | ⟨h1, h1v⟩ <;> rcases hbc with h2 | ⟨h2, h2v⟩
    · exact Or.inl (lt_trans h2 h1)
    · exact Or.inl (by rw [← h2]; exact h1)
    · exact Or.inl (by rw [h1]; exact h2)
    · exact Or.inr ⟨h1.trans h2, le_trans h2v h1v⟩
  · simp only [if_true] at hab hbc ⊢
    rcases hab with h1 | ⟨h1, h1v⟩ <;> rcases hbc with h2 | ⟨h2, h2v⟩
    · exact Or.inl (lt_trans h1 h2)
    · exact Or.inl (by rw [← h2]; exact h1)
    · exact Or.inl (by rw [h1]; exact h2)
    · exact Or.inr ⟨h1.trans h2, le_trans h1v h2v⟩

instance {G V : Type} [LinearOrder G] [LinearOrder V] (ascending : Bool) :
    IsTotal (TRow G V) (valr ascending) := by
  constructor
  intro a b
  unfold valr dirLe
  cases ascending
  · simp only [Bool.false_eq_true, if_false]
    exact le_total b.vkey a.vkey
  · simp only [if_true]
    exact le_total a.vkey b.vkey

instance {G V : Type} [LinearOrder G] [LinearOrder V] (ascending : Bool) :
    IsTrans (TRow G V) (valr ascending) := by
  constructor
  intro a b c hab hbc
  unfold valr dirLe at hab hbc ⊢
  cases ascending
  · simp only [Bool.false_eq_true, if_false] at hab hbc ⊢
    exact le_trans hbc hab
  · simp only [if_true] at hab hbc ⊢
    exact le_trans hab hbc

/-- Distinct values of a list in order of first appearance. -/
def uniqueKeys {G : Type} [DecidableEq G] : List G → List G
  | [] => []
  | g :: rest => g :: uniqueKeys (rest.filter (fun x => x ≠ g))
termination_by l => l.length
decreasing_by
  simp only [List.length_cons]
  exact Nat.lt_succ_of_le (List.length_filter_le _ _)

/-- `datac.value_counts(group_cols, sort=False)` on a DataFrame: pandas
computes `groupby(group_cols).size()` with groupby's default
`sort=True`, so the counts come back with the group keys in ascending
order; `sort=False` only skips the subsequent sort by count. -/
def value_counts {G V : Type} [LinearOrder G] [DecidableEq G]
    (rows : List (TRow G V)) : List (G × ℕ) :=
  (List.insertionSort (fun a b => a ≤ b) (uniqueKeys (rows.map (fun r => r.gkey)))).map
    (fun g => (g, (rows.filter (fun r => r.gkey = g)).length))

/-- `np.hstack(datac.value_counts(group_cols, sort=False).map(range))`:
the per-position rank numbers obtained by concatenating `range(count)`
over the groups in the order `value_counts` returns them (ascending by
group key), and zipped positionally against the sorted table. -/
def groupRanks {G V : Type} [LinearOrder G] [DecidableEq G]
    (rows : List (TRow G V)) : List ℕ :=
  (value_counts rows).flatMap (fun p => List.range p.2)

/-- `pd_data_group_top_n` from `evaluation/top_coverage_evaluator.py`:
sort the whole table by (group columns, value columns) in the requested
direction, assign the concatenated per-group rank counters, and keep the
rows with `rank < k`.  Row identity (`rid`) is preserved, which models
the index save/restore of the source.  `k` is compared as a float, as
at the call site (`top_n` is an optional float hyperparameter). -/
def pd_data_group_top_n {G V : Type} [LinearOrder G] [LinearOrder V] [DecidableEq G]
    (data : List (TRow G V)) (ascending : Bool) (k : ℚ) : List (TRow G V) :=
  (((List.insertionSort (lexr ascending) data).zip
      (groupRanks (List.insertionSort (lexr ascending) data))).filter
    (fun rr => ((rr.2 : ℕ) : ℚ) < k)).map Prod.fst

/-- The reference procedure of the specification for the grouped top-N
selector: for each group independently (groups enumerated in order of
first appearance), sort that group by the value columns in the
requested direction and take the first `k` rows. -/
def group_top_n_ref {G V : Type} [LinearOrder G] [LinearOrder V] [DecidableEq G]
    (data : List (TRow G V)) (ascending : Bool) (k : ℤ) : List (TRow G V) :=
  (uniqueKeys (data.map (fun r => r.gkey))).flatMap
    (fun g =>
      (List.insertionSort (valr ascending) (data.filter (fun r => r.gkey = g))).take k.toNat)

/-- `calculate_top_n_coverage` from
`evaluation/top_coverage_evaluator.py` (mask column absent): the target
sum of the grouped top-N selection (on the score column, descending)
over the target grand total. -/
def calculate_top_n_coverage (df : List (TRow ℚ ℚ)) (top_n : Option ℚ) : PFloat :=
  fdiv
    (((pd_data_group_top_n (evaluation_preprocessor df) false (top_n.getD 100)).map
        (fun r => r.tval)).sum)
    (((evaluation_preprocessor df).map (fun r => r.tval)).sum)

/-- All (earlier, later) element pairs of a list, in order. -/
def listPairs {α : Type} : List α → List (α × α)
  | [] => []
  | a :: rest => (rest.map (fun b => (a, b))) ++ listPairs rest

/-- Sign of a rational, as an integer. -/
def qsign (q : ℚ) : ℤ := if q < 0 then -1 else if q = 0 then 0 else 1

/-- The pair statistics of `scipy.stats.kendalltau` (default tau-b) over
two equal-length samples: (concordant minus discordant,
`tot - xtie`, `tot - ytie`), where `tot` is the number of index pairs,
`xtie`/`ytie` the numbers of pairs tied in x / in y.  `none` encodes the
NaN returned when all pairs are tied in x or all are tied in y (this
also covers samples of size 0 or 1, where `tot = 0`). -/
def tauStats (x y : List ℚ) : Option (ℤ × ℕ × ℕ) :=
  let ps := listPairs (x.zip y)
  let tot := ps.length
  let xtie := ps.countP (fun p => p.1.1 = p.2.1)
  let ytie := ps.countP (fun p => p.1.2 = p.2.2)
  if xtie = tot ∨ ytie = tot then none
  else some ((ps.map (fun p => qsign (p.2.1 - p.1.1) * qsign (p.2.2 - p.1.2))).sum,
    tot - xtie, tot - ytie)

/-- The tau-b value: `con_minus_dis / sqrt(tot - xtie) / sqrt(tot - ytie)`. -/
noncomputable def tauOfStats : Option (ℤ × ℕ × ℕ) → Option ℝ
  | none => none
  | some (c, a, b) => some ((c : ℝ) / (Real.sqrt a * Real.sqrt b))

noncomputable def kendalltau (x y : List ℚ) : Option ℝ := tauOfStats (tauStats x y)

/-- The mutable `Calculator` state used by `calculate_tau`: `df` is the
dataframe (ordered association list of named columns over ℚ) and
`bin_mappings` the bin cache keyed by column name. -/
structure CalcState where
  df : List (String × List ℚ)
  bin_mappings : List (String × List ℚ)
deriving DecidableEq

/-- `df[name]`: first column with the given name (empty if absent). -/
def getCol : List (String × List ℚ) → String → List ℚ
  | [], _ => []
  | p :: rest, name => if p.1 = name then p.2 else getCol rest name

/-- `df[name] = col`: replace the column if present, else append it. -/
def setCol : List (String × List ℚ) → String → List ℚ → List (String × List ℚ)
  | [], name, col => [(name, col)]
  | p :: rest, name, col =>
      if p.1 = name then (name, col) :: rest else p :: setCol rest name col

/-- Dictionary lookup in the bin cache. -/
def lookupBins : List (String × List ℚ) → String → Option (List ℚ)
  | [], _ => none
  | p :: rest, name => if p.1 = name then some p.2 else lookupBins rest name

/-- Lines 62-66 of `tau_evaluator.py`: resolve `num_bins`, defaulting to
`int(min(nunique(target), 100))` and truncating a given float to int. -/
def resolveNumBins (c : CalcState) (target_column : String) (num_bins : Option ℚ) : ℤ :=
  match num_bins with
  | none => min ((getCol c.df target_column).dedup.length : ℤ) 100
  | some q => intTrunc q

/-- Lines 67-71 of `tau_evaluator.py`: take the target bin mapping from
the cache when present, otherwise compute it with `map_to_bins` and
store it under the target column name. -/
def tau_label_bins (c : CalcState) (target_column : String) (nb : ℤ) :
    List ℚ × List (String × List ℚ) :=
  match lookupBins c.bin_mappings target_column with
  | some b => (b, c.bin_mappings)
  | none =>
      (map_to_bins (getCol c.df target_column) nb,
        c.bin_mappings ++ [(target_column, map_to_bins (getCol c.df target_column) nb)])

/-- `pandas.groupby` keys: the distinct values of the grouping column in
ascending order (groupby sorts keys by default). -/
def sortedKeys (l : List ℚ) : List ℚ := List.insertionSort (· ≤ ·) l.dedup

/-- The sub-column of `col` at the rows where the grouping column equals
`g`. -/
def selectWhere (gcol : List ℚ) (g : ℚ) (col : List ℚ) : List ℚ :=
  ((gcol.zip col).filter (fun p => p.1 = g)).map Prod.snd

/-- The grouped branch of `calculate_tau`:
`df.groupby(groupby).apply(lambda x: kendalltau(x[bin], x[pd])[0])`
followed by `np.mean` (the `weights_for_groups` parameter is `None` at
every call site in these sources, selecting the mean branch).  A NaN in
any group, or an empty group list, makes the mean NaN (`none`). -/
noncomputable def groupedTauMean (gcol : List ℚ) (binCol : List ℚ) (pdCol : List ℚ) :
    Option ℝ :=
  let keys := sortedKeys gcol
  let taus := keys.map (fun g => kendalltau (selectWhere gcol g binCol)
    (selectWhere gcol g pdCol))
  if keys = [] then none
  else if taus.all (fun t => t.isSome) then
    some ((taus.map (fun t => t.getD 0)).sum / (keys.length : ℝ))
  else none

/-- `calculate_tau` from `evaluation/tau_evaluator.py`, as a
state-passing function: resolve `num_bins`, fetch or build the cached
target binning, then either (grouped) write the `{target}_bin` column
into the dataframe and average per-group Kendall taus, or (ungrouped)
bin the score column and take the Kendall tau of the two binned
columns.  The returned state carries the dataframe (mutated in the
grouped branch only) and the possibly extended bin cache. -/
noncomputable def calculate_tau (c : CalcState) (target_column : String)
    (groupby : Option String) (num_bins : Option ℚ) (pd_column : String) :
    Option ℝ × CalcState :=
  let nb := resolveNumBins c target_column num_bins
  let lb := tau_label_bins c target_column nb
  match groupby with
  | some gcol =>
      let df2 := setCol c.df (target_column ++ "_bin") lb.1
      (groupedTauMean (getCol df2 gcol) (getCol df2 (target_column ++ "_bin"))
          (getCol df2 pd_column),
        ⟨df2, lb.2⟩)
  | none =>
      (kendalltau lb.1 (map_to_bins (getCol c.df pd_column) nb), ⟨c.df, lb.2⟩)

-- ===== derived facts and claim theorems below =====

/-- The evaluator interface of the `Calculator` object, as used by
`optimization/evaluate_targets.py`: one function field per metric
method, with the argument lists of the call sites (target column, mask
column, metric hyperparameter, grouping column, property string, score
column name, shared weight vector).  Scalar metric results are ℚ;
`calculate_woauc` returns a list (the dispatcher sums it); the two
portfolio methods return pairs (the dispatcher keeps the second
component).  The `calculator=calculator` self-argument of
`calculate_inverse_pair` is the implicit receiver here. -/
structure Calculator where
  calculate_corrcoef : String → Option String → String → ℚ
  calculate_portfolio_concentration : String → Option String → Option ℚ → String → ℚ × ℚ
  calculate_distinct_count_portfolio_concentration :
    String → Option String → Option ℚ → String → ℚ × ℚ
  calculate_top_coverage : String → Option String → Option ℚ → String → ℚ
  calculate_top_n_coverage : String → Option String → Option String → Option ℚ → String → ℚ
  calculate_distinct_top_coverage : String → Option String → Option ℚ → String → ℚ
  calculate_wuauc : String → Option String → Option String → List ℚ → Bool → String → ℚ
  calculate_woauc : String → Option String → List ℚ → String → List ℚ
  calculate_log_mse : String → String → ℚ
  calculate_neg_rank_ratio : List ℚ → String → String → ℚ
  calculate_inverse_pair : List ℚ → Option String → String → ℚ
  calculate_tau : Option String → String → Option ℚ → String → ℚ

/-- One evaluator specification, in the tuple order of the `zip` in
`evaluate_targets`. -/
structure Spec7 where
  flag : String
  mask_column : Option String
  hyperparameter : Option ℚ
  evaluator_property : Option String
  groupby : Option String
  target_column : String
  pd_score_column : String
deriving DecidableEq

instance : Inhabited Spec7 := ⟨⟨"", none, none, none, none, "", ""⟩⟩

/-- Python `zip` over the seven parallel specification lists (truncates
at the shortest list). -/
def zip7 : List String → List (Option String) → List (Option ℚ) → List (Option String) →
    List (Option String) → List String → List String → List Spec7
  | f :: fs, m :: ms, h :: hs, p :: ps, g :: gs, t :: ts, d :: ds =>
      ⟨f, m, h, p, g, t, d⟩ :: zip7 fs ms hs ps gs ts ds
  | _, _, _, _, _, _, _ => []

/-- The `if flag == ... / elif ...` chain of `evaluate_targets`: the list
of values appended for one specification (empty when the flag is
unrecognized, since the chain has no `else` branch). -/
def route (calculator : Calculator) (weights : List ℚ) (s : Spec7) : List ℚ :=
  if s.flag = "pearson" then
    [calculator.calculate_corrcoef s.target_column s.mask_column s.pd_score_column]
  else if s.flag = "portfolio" then
    [(calculator.calculate_portfolio_concentration s.target_column s.mask_column
        s.hyperparameter s.pd_score_column).2]
  else if s.flag = "distinct_count_portfolio" then
    [(calculator.calculate_distinct_count_portfolio_concentration s.target_column
        s.mask_column s.hyperparameter s.pd_score_column).2]
  else if s.flag = "top_coverage" then
    [calculator.calculate_top_coverage s.target_column s.mask_column s.hyperparameter
        s.pd_score_column]
  else if s.flag = "top_n_coverage" then
    [calculator.calculate_top_n_coverage s.target_column s.mask_column s.groupby
        s.hyperparameter s.pd_score_column]
  else if s.flag = "distinct_top_coverage" then
    [calculator.calculate_distinct_top_coverage s.target_column s.mask_column
        s.hyperparameter s.pd_score_column]
  else if s.flag = "wuauc" then
    [calculator.calculate_wuauc s.target_column s.mask_column s.groupby weights false
        s.pd_score_column]
  else if s.flag = "auc" then
    [calculator.calculate_wuauc s.target_column s.mask_column s.groupby weights true
        s.pd_score_column]
  else if s.flag = "woauc" then
    [(calculator.calculate_woauc s.target_column s.groupby weights s.pd_score_column).sum]
  else if s.flag = "logmse" then
    [calculator.calculate_log_mse s.target_column s.pd_score_column]
  else if s.flag = "neg_rank_ratio" then
    [calculator.calculate_neg_rank_ratio weights s.target_column s.pd_score_column]
  else if s.flag = "inverse_pairs" then
    [calculator.calculate_inverse_pair weights s.evaluator_property s.pd_score_column]
  else if s.flag = "tau" then
    [calculator.calculate_tau s.groupby s.target_column s.hyperparameter s.pd_score_column]
  else []

/-- The scalar appended for one recognized specification (0 is a junk
default for unrecognized flags, never used under a recognizedness
hypothesis). -/
def route1 (calculator : Calculator) (weights : List ℚ) (s : Spec7) : ℚ :=
  if s.flag = "pearson" then
    calculator.calculate_corrcoef s.target_column s.mask_column s.pd_score_column
  else if s.flag = "portfolio" then
    (calculator.calculate_portfolio_concentration s.target_column s.mask_column
        s.hyperparameter s.pd_score_column).2
  else if s.flag = "distinct_count_portfolio" then
    (calculator.calculate_distinct_count_portfolio_concentration s.target_column
        s.mask_column s.hyperparameter s.pd_score_column).2
  else if s.flag = "top_coverage" then
    calculator.calculate_top_coverage s.target_column s.mask_column s.hyperparameter
        s.pd_score_column
  else if s.flag = "top_n_coverage" then
    calculator.calculate_top_n_coverage s.target_column s.mask_column s.groupby
        s.hyperparameter s.pd_score_column
  else if s.flag = "distinct_top_coverage" then
    calculator.calculate_distinct_top_coverage s.target_column s.mask_column
        s.hyperparameter s.pd_score_column
  else if s.flag = "wuauc" then
    calculator.calculate_wuauc s.target_column s.mask_column s.groupby weights false
        s.pd_score_column
  else if s.flag = "auc" then
    calculator.calculate_wuauc s.target_column s.mask_column s.groupby weights true
        s.pd_score_column
  else if s.flag = "woauc" then
    (calculator.calculate_woauc s.target_column s.groupby weights s.pd_score_column).sum
  else if s.flag = "logmse" then
    calculator.calculate_log_mse s.target_column s.pd_score_column
  else if s.flag = "neg_rank_ratio" then
    calculator.calculate_neg_rank_ratio weights s.target_column s.pd_score_column
  else if s.flag = "inverse_pairs" then
    calculator.calculate_inverse_pair weights s.evaluator_property s.pd_score_column
  else if s.flag = "tau" then
    calculator.calculate_tau s.groupby s.target_column s.hyperparameter s.pd_score_column
  else 0

/-- The metric kinds with a branch in the dispatcher. -/
def recognizedFlags : List String :=
  ["pearson", "portfolio", "distinct_count_portfolio", "top_coverage", "top_n_coverage",
   "distinct_top_coverage", "wuauc", "auc", "woauc", "logmse", "neg_rank_ratio",
   "inverse_pairs", "tau"]

/-- `evaluate_targets` from `optimization/evaluate_targets.py`: the loop
over the zipped specification lists, appending the values of the matched
branch (none for an unrecognized flag). -/
def evaluate_targets (calculator : Calculator) (evaluator_flags : List String)
    (target_columns : List String) (mask_columns : List (Option String))
    (hyperparameters : List (Option ℚ)) (evaluator_propertys : List (Option String))
    (groupbys : List (Option String)) (weights : List ℚ)
    (pd_score_columns : List String) : List ℚ :=
  (zip7 evaluator_flags mask_columns hyperparameters evaluator_propertys groupbys
      target_columns pd_score_columns).flatMap (route calculator weights)

/-- A concrete calculator whose evaluator methods return fixed values;
only used to instantiate dispatcher witnesses. -/
def zeroCalculator : Calculator where
  calculate_corrcoef := fun _ _ _ => 1
  calculate_portfolio_concentration := fun _ _ _ _ => (0, 2)
  calculate_distinct_count_portfolio_concentration := fun _ _ _ _ => (0, 3)
  calculate_top_coverage := fun _ _ _ _ => 4
  calculate_top_n_coverage := fun _ _ _ _ _ => 5
  calculate_distinct_top_coverage := fun _ _ _ _ => 6
  calculate_wuauc := fun _ _ _ _ _ _ => 7
  calculate_woauc := fun _ _ _ _ => [8, 9]
  calculate_log_mse := fun _ _ => 10
  calculate_neg_rank_ratio := fun _ _ _ => 11
  calculate_inverse_pair := fun _ _ _ => 12
  calculate_tau := fun _ _ _ _ => 13

/-- C7: for every bin count, the binning engine returns an empty result
on the empty column, and on every non-empty all-zero column it returns
an all-zero array of the same length; both cases are total (no
exception). -/
theorem C7_empty_and_all_zero (num_bins : ℤ) (data : List ℚ) :
    map_to_bins [] num_bins = [] ∧
    (data ≠ [] → (∀ v ∈ data, v = 0) →
      map_to_bins data num_bins = List.replicate data.length 0) := by
  constructor
  · simp [map_to_bins]
  · intro hne hz
    unfold map_to_bins
    rw [if_neg, if_pos]
    · simpa using hz
    · simpa using hne

/-- C7 witness: the two conclusions at concrete inputs. -/
theorem C7_witness :
    map_to_bins [] 7 = [] ∧ map_to_bins [0, 0, 0] 7 = List.replicate 3 0 := by
  refine ⟨(C7_empty_and_all_zero 7 [0, 0, 0]).1, ?_⟩
  have h := (C7_empty_and_all_zero 7 [0, 0, 0]).2 (by decide) (by decide)
  simpa using h

theorem np_linspace01_length (n : ℕ) : (np_linspace01 n).length = n := by
  unfold np_linspace01
  split
  · simp [*]
  · simp

theorem binCuts_length (nzd : List ℚ) (num_bins : ℤ)
    (h : 1 ≤ min num_bins (nzd.length : ℤ)) :
    (binCuts nzd num_bins).length + 1 = (min num_bins (nzd.length : ℤ)).toNat := by
  unfold binCuts
  rw [List.length_map, List.length_dropLast, List.length_drop, np_linspace01_length]
  omega

theorem toFinset_map_eq (l : List ℚ) (f : ℚ → ℚ) :
    (l.map f).toFinset = l.toFinset.image f := by
  ext a
  simp

/-- C8 counterexample: at the concrete input `data = [1]`, `num_bins = 0`,
the code emits one distinct non-zero bin label, exceeding
`min num_bins (distinct non-zero values) = 0`; so the claim fails for the
bin count 0. -/
theorem C8_counterexample :
    ¬ ((distinctNonzeroCount (map_to_bins [1] 0) : ℤ) ≤
        min (0 : ℤ) (distinctNonzeroCount [(1 : ℚ)] : ℤ)) := by
  have h : map_to_bins [1] 0 = [1] := by
    norm_num [map_to_bins, binCuts, nonZeroPart, np_linspace01]
  rw [h]
  norm_num [distinctNonzeroCount, List.dedup]

/-- C8 (amended): for every array and every requested bin count
`num_bins ≥ 1`, the binning engine assigns at most
`min num_bins (count of distinct non-zero values)` distinct non-zero bin
labels; fewer distinct values silently reduce the bin count (the
function is total, no error path). -/
theorem C8_bins_bound (data : List ℚ) (num_bins : ℤ) (h1 : 1 ≤ num_bins) :
    (distinctNonzeroCount (map_to_bins data num_bins) : ℤ) ≤
      min num_bins (distinctNonzeroCount data : ℤ) := by
  have hnn : (0 : ℤ) ≤ (distinctNonzeroCount data : ℤ) := by positivity
  unfold map_to_bins
  by_cases h0 : data.length = 0
  · rw [if_pos h0]
    refine le_min ?_ ?_
    · simp only [distinctNonzeroCount, List.filter_nil, List.dedup_nil, List.length_nil,
        Nat.cast_zero]
      omega
    · simp only [distinctNonzeroCount, List.filter_nil, List.dedup_nil, List.length_nil,
        Nat.cast_zero]
      exact hnn
  · rw [if_neg h0]
    by_cases hz : data.all (fun v => v = 0)
    · rw [if_pos hz]
      have hrep : (List.replicate data.length (0 : ℚ)).filter (fun v => v ≠ 0) = [] := by
        rw [List.filter_eq_nil_iff]
        intro a ha
        have := List.eq_of_mem_replicate ha
        simp [this]
      refine le_min ?_ ?_
      · unfold distinctNonzeroCount
        rw [hrep]
        simp only [List.dedup_nil, List.length_nil, Nat.cast_zero]
        omega
      · unfold distinctNonzeroCount
        rw [hrep]
        simp only [List.dedup_nil, List.length_nil, Nat.cast_zero]
        exact hnn
    · rw [if_neg hz]
      have hm1 : 1 ≤ (nonZeroPart data).length := by
        have hex : ∃ v ∈ data, v ≠ 0 := by
          by_contra hcon
          push_neg at hcon
          apply hz
          rw [List.all_eq_true]
          intro x hx
          simpa using hcon x hx
        rcases hex with ⟨v, hv, hvz⟩
        have hmem : v ∈ nonZeroPart data := List.mem_filter.mpr ⟨hv, by simpa using hvz⟩
        have := List.length_pos.mpr (List.ne_nil_of_mem hmem)
        omega
      have hnb1 : 1 ≤ min num_bins ((nonZeroPart data).length : ℤ) :=
        le_min h1 (by exact_mod_cast hm1)
      set cuts := binCuts (nonZeroPart data) num_bins with hcuts
      have hclen : cuts.length + 1 = (min num_bins ((nonZeroPart data).length : ℤ)).toNat :=
        binCuts_length _ _ hnb1
      set f : ℚ → ℚ :=
        (fun v => if v = 0 then 0 else ((cuts.countP (fun c => c ≤ v) : ℕ) : ℚ) + 1)
        with hf
      have hfz : ∀ v : ℚ, f v ≠ 0 ↔ v ≠ 0 := by
        intro v
        by_cases hv : v = 0
        · simp [hf, hv]
        · have : ((cuts.countP (fun c => c ≤ v) : ℕ) : ℚ) + 1 ≠ 0 := by positivity
          simp [hf, hv, this]
      have hstep : (data.map f).filter (fun v => v ≠ 0) = (nonZeroPart data).map f := by
        rw [List.filter_map, nonZeroPart]
        congr 1
        apply List.filter_congr
        intro x _
        simp only [Function.comp_apply, decide_eq_decide]
        exact hfz x
      unfold distinctNonzeroCount
      rw [hstep]
      have hcard : ((nonZeroPart data).map f).dedup.length =
          ((nonZeroPart data).map f).toFinset.card :=
        (List.card_toFinset _).symm
      rw [hcard]
      have hsub : ((nonZeroPart data).map f).toFinset ⊆
          Finset.image (fun k : ℕ => ((k : ℚ) + 1)) (Finset.range (cuts.length + 1)) := by
        intro a ha
        rcases List.mem_map.mp (List.mem_toFinset.mp ha) with ⟨v, hv, hva⟩
        have hvz : v ≠ 0 := by
          have := List.mem_filter.mp hv
          simpa using this.2
        refine Finset.mem_image.mpr ⟨cuts.countP (fun c => c ≤ v), ?_, ?_⟩
        · exact Finset.mem_range.mpr (Nat.lt_succ_of_le (List.countP_le_length _))
        · rw [← hva, hf]
          simp [hvz]
      have hle1 : ((nonZeroPart data).map f).toFinset.card ≤
          (min num_bins ((nonZeroPart data).length : ℤ)).toNat := by
        calc ((nonZeroPart data).map f).toFinset.card
            ≤ (Finset.image (fun k : ℕ => ((k : ℚ) + 1))
                (Finset.range (cuts.length + 1))).card :=
              Finset.card_le_card hsub
          _ ≤ (Finset.range (cuts.length + 1)).card := Finset.card_image_le
          _ = (min num_bins ((nonZeroPart data).length : ℤ)).toNat := by
              rw [Finset.card_range, hclen]
      have hle2 : ((nonZeroPart data).map f).toFinset.card ≤
          (nonZeroPart data).toFinset.card := by
        rw [toFinset_map_eq]
        exact Finset.card_image_le
      refine le_min ?_ ?_
      · have h2 : ((min num_bins ((nonZeroPart data).length : ℤ)).toNat : ℤ) ≤ num_bins := by
          omega
        calc (((nonZeroPart data).map f).toFinset.card : ℤ)
            ≤ ((min num_bins ((nonZeroPart data).length : ℤ)).toNat : ℤ) := by
              exact_mod_cast hle1
          _ ≤ num_bins := h2
      · have h3 : (nonZeroPart data).toFinset.card =
            ((data.filter (fun v => v ≠ 0)).dedup).length := by
          rw [List.card_toFinset]
          rfl
        rw [← h3]
        exact_mod_cast hle2

/-- C8 witness: the amended bound instantiated at a concrete input
satisfying the hypothesis. -/
theorem C8_bins_bound_witness :
    (1 : ℤ) ≤ 2 ∧
      (distinctNonzeroCount (map_to_bins [1, 2, 3] 2) : ℤ) ≤
        min (2 : ℤ) (distinctNonzeroCount [(1 : ℚ), 2, 3] : ℤ) :=
  ⟨by norm_num, C8_bins_bound [1, 2, 3] 2 (by norm_num)⟩









theorem route_eq_if (calculator : Calculator) (weights : List ℚ) (s : Spec7) :
    route calculator weights s =
      if s.flag ∈ recognizedFlags then [route1 calculator weights s] else [] := by
  by_cases h : s.flag ∈ recognizedFlags
  · rw [if_pos h]
    simp only [recognizedFlags, List.mem_cons, List.mem_singleton, List.not_mem_nil,
      or_false] at h
    rcases h with h | h | h | h | h | h | h | h | h | h | h | h | h <;>
      simp [route, route1, h]
  · rw [if_neg h]
    simp only [recognizedFlags, List.mem_cons, List.mem_singleton, List.not_mem_nil,
      or_false, not_or] at h
    obtain ⟨h1, h2, h3, h4, h5, h6, h7, h8, h9, h10, h11, h12, h13⟩ := h
    simp [route, h1, h2, h3, h4, h5, h6, h7, h8, h9, h10, h11, h12, h13]

theorem zip7_length (fs : List String) (ms : List (Option String)) (hs : List (Option ℚ))
    (ps : List (Option String)) (gs : List (Option String)) (ts : List String)
    (ds : List String) (N : ℕ) (h1 : fs.length = N) (h2 : ms.length = N)
    (h3 : hs.length = N) (h4 : ps.length = N) (h5 : gs.length = N) (h6 : ts.length = N)
    (h7 : ds.length = N) :
    (zip7 fs ms hs ps gs ts ds).length = N := by
  induction fs generalizing ms hs ps gs ts ds N with
  | nil => simp at h1; subst h1; cases ms <;> simp [zip7]
  | cons f fs ih =>
    cases ms with
    | nil => simp at h1 h2; omega
    | cons m ms =>
      cases hs with
      | nil => simp at h1 h3; omega
      | cons h hs =>
        cases ps with
        | nil => simp at h1 h4; omega
        | cons p ps =>
          cases gs with
          | nil => simp at h1 h5; omega
          | cons g gs =>
            cases ts with
            | nil => simp at h1 h6; omega
            | cons t ts =>
              cases ds with
              | nil => simp at h1 h7; omega
              | cons d ds =>
                simp only [zip7, List.length_cons]
                simp only [List.length_cons] at h1 h2 h3 h4 h5 h6 h7
                have := ih ms hs ps gs ts ds (N - 1) (by omega) (by omega) (by omega)
                  (by omega) (by omega) (by omega) (by omega)
                omega

theorem zip7_getD (fs : List String) (ms : List (Option String)) (hs : List (Option ℚ))
    (ps : List (Option String)) (gs : List (Option String)) (ts : List String)
    (ds : List String) (N : ℕ) (h1 : fs.length = N) (h2 : ms.length = N)
    (h3 : hs.length = N) (h4 : ps.length = N) (h5 : gs.length = N) (h6 : ts.length = N)
    (h7 : ds.length = N) (i : ℕ) (hi : i < N) :
    (zip7 fs ms hs ps gs ts ds).getD i default =
      ⟨fs.getD i "", ms.getD i none, hs.getD i none, ps.getD i none, gs.getD i none,
        ts.getD i "", ds.getD i ""⟩ := by
  induction fs generalizing ms hs ps gs ts ds N i with
  | nil => simp at h1; omega
  | cons f fs ih =>
    cases ms with
    | nil => simp at h2; omega
    | cons m ms =>
      cases hs with
      | nil => simp at h3; omega
      | cons h hs =>
        cases ps with
        | nil => simp at h4; omega
        | cons p ps =>
          cases gs with
          | nil => simp at h5; omega
          | cons g gs =>
            cases ts with
            | nil => simp at h6; omega
            | cons t ts =>
              cases ds with
              | nil => simp at h7; omega
              | cons d ds =>
                simp only [List.length_cons] at h1 h2 h3 h4 h5 h6 h7
                cases i with
                | zero => simp [zip7]
                | succ j =>
                  simp only [zip7, List.getD_cons_succ]
                  exact ih ms hs ps gs ts ds (N - 1) (by omega) (by omega) (by omega)
                    (by omega) (by omega) (by omega) (by omega) j (by omega)

theorem zip7_flag_mem (fs : List String) (ms : List (Option String)) (hs : List (Option ℚ))
    (ps : List (Option String)) (gs : List (Option String)) (ts : List String)
    (ds : List String) (s : Spec7) (hsmem : s ∈ zip7 fs ms hs ps gs ts ds) :
    s.flag ∈ fs := by
  induction fs generalizing ms hs ps gs ts ds with
  | nil => cases ms <;> simp [zip7] at hsmem
  | cons f fs ih =>
    cases ms with
    | nil => simp [zip7] at hsmem
    | cons m ms =>
      cases hs with
      | nil => simp [zip7] at hsmem
      | cons h hs =>
        cases ps with
        | nil => simp [zip7] at hsmem
        | cons p ps =>
          cases gs with
          | nil => simp [zip7] at hsmem
          | cons g gs =>
            cases ts with
            | nil => simp [zip7] at hsmem
            | cons t ts =>
              cases ds with
              | nil => simp [zip7] at hsmem
              | cons d ds =>
                rw [zip7] at hsmem
                rcases List.mem_cons.mp hsmem with hh | hh
                · subst hh
                  exact List.mem_cons_self _ _
                · exact List.mem_cons_of_mem f (ih ms hs ps gs ts ds hh)

theorem flatMap_route_all_recognized (calculator : Calculator) (weights : List ℚ)
    (specs : List Spec7) (hrec : ∀ s ∈ specs, s.flag ∈ recognizedFlags) :
    specs.flatMap (route calculator weights) = specs.map (route1 calculator weights) := by
  induction specs with
  | nil => rfl
  | cons s rest ih =>
    have hs := hrec s (List.mem_cons_self s rest)
    rw [List.flatMap_cons, route_eq_if, if_pos hs, List.map_cons,
      ih (fun x hx => hrec x (List.mem_cons_of_mem s hx))]
    rfl

/-- C1: when every flag is recognized and all seven parallel
specification lists have length N, `evaluate_targets` returns a vector
of length exactly N whose element `i` is the scalar produced by the
branch (evaluator call) matching the flag of specification `i` — for
every ordering of flags in the list, since the lists are universally
quantified. -/
theorem C1_dispatcher_positional (calculator : Calculator) (weights : List ℚ)
    (evaluator_flags : List String) (target_columns : List String)
    (mask_columns : List (Option String)) (hyperparameters : List (Option ℚ))
    (evaluator_propertys : List (Option String)) (groupbys : List (Option String))
    (pd_score_columns : List String) (N : ℕ)
    (h1 : evaluator_flags.length = N) (h2 : mask_columns.length = N)
    (h3 : hyperparameters.length = N) (h4 : evaluator_propertys.length = N)
    (h5 : groupbys.length = N) (h6 : target_columns.length = N)
    (h7 : pd_score_columns.length = N)
    (hrec : ∀ f ∈ evaluator_flags, f ∈ recognizedFlags) :
    (evaluate_targets calculator evaluator_flags target_columns mask_columns
        hyperparameters evaluator_propertys groupbys weights pd_score_columns).length = N ∧
    ∀ i, i < N →
      (evaluate_targets calculator evaluator_flags target_columns mask_columns
          hyperparameters evaluator_propertys groupbys weights pd_score_columns).getD i 0 =
        route1 calculator weights
          ⟨evaluator_flags.getD i "", mask_columns.getD i none, hyperparameters.getD i none,
            evaluator_propertys.getD i none, groupbys.getD i none, target_columns.getD i "",
            pd_score_columns.getD i ""⟩ := by
  have hrec2 : ∀ s ∈ zip7 evaluator_flags mask_columns hyperparameters evaluator_propertys
      groupbys target_columns pd_score_columns, s.flag ∈ recognizedFlags :=
    fun s hsmem => hrec s.flag (zip7_flag_mem _ _ _ _ _ _ _ s hsmem)
  have hmain : evaluate_targets calculator evaluator_flags target_columns mask_columns
      hyperparameters evaluator_propertys groupbys weights pd_score_columns =
      (zip7 evaluator_flags mask_columns hyperparameters evaluator_propertys groupbys
        target_columns pd_score_columns).map (route1 calculator weights) := by
    rw [evaluate_targets, flatMap_route_all_recognized _ _ _ hrec2]
  have hlen : (zip7 evaluator_flags mask_columns hyperparameters evaluator_propertys
      groupbys target_columns pd_score_columns).length = N :=
    zip7_length _ _ _ _ _ _ _ N h1 h2 h3 h4 h5 h6 h7
  constructor
  · rw [hmain, List.length_map, hlen]
  · intro i hi
    rw [hmain]
    rw [List.getD_eq_getElem?_getD, List.getElem?_map]
    have hilt : i < (zip7 evaluator_flags mask_columns hyperparameters evaluator_propertys
        groupbys target_columns pd_score_columns).length := by omega
    rw [List.getElem?_eq_getElem hilt]
    have hspec := zip7_getD evaluator_flags mask_columns hyperparameters
      evaluator_propertys groupbys target_columns pd_score_columns N h1 h2 h3 h4 h5 h6 h7
      i hi
    rw [List.getD_eq_getElem?_getD, List.getElem?_eq_getElem hilt] at hspec
    simp only [Option.getD_some] at hspec ⊢
    rw [hspec]
    simp


/-- C1 witness: two recognized flags in both orders give length-2 output
with positionally matching values. -/
theorem C1_dispatcher_positional_witness :
    (evaluate_targets zeroCalculator ["tau", "pearson"] ["t1", "t2"] [none, none]
        [none, none] [none, none] [none, none] [] ["s1", "s2"]).length = 2 ∧
      (evaluate_targets zeroCalculator ["tau", "pearson"] ["t1", "t2"] [none, none]
          [none, none] [none, none] [none, none] [] ["s1", "s2"]).getD 0 0 =
        route1 zeroCalculator []
          ⟨"tau", none, none, none, none, "t1", "s1"⟩ := by
  have h := C1_dispatcher_positional zeroCalculator [] ["tau", "pearson"] ["t1", "t2"]
    [none, none] [none, none] [none, none] [none, none] ["s1", "s2"] 2
    rfl rfl rfl rfl rfl rfl rfl
    (by intro f hf; simp only [List.mem_cons, List.not_mem_nil, or_false] at hf
        rcases hf with h | h <;> simp [h, recognizedFlags])
  refine ⟨h.1, ?_⟩
  have h0 := h.2 0 (by omega)
  simpa using h0

/-- C2 counterexample: a single-specification list with the unrecognized
flag "bogus" produces the empty Target Vector (length 0, shorter than
the input list of length 1) instead of aborting with a configuration
error — the dispatcher if/elif chain has no else branch. -/
theorem C2_counterexample :
    evaluate_targets zeroCalculator ["bogus"] ["t"] [none] [none] [none] [none] [] ["s"]
      = [] := by
  simp [evaluate_targets, zip7, route]

/-- C2 (amended): an unrecognized metric kind is silently skipped, not a
raised error: the Target Vector is exactly the in-order image of the
recognized specifications, so its length is the number of recognized
specifications rather than the full specification count. -/
theorem C2_unrecognized_silently_skipped (calculator : Calculator) (weights : List ℚ)
    (evaluator_flags : List String) (target_columns : List String)
    (mask_columns : List (Option String)) (hyperparameters : List (Option ℚ))
    (evaluator_propertys : List (Option String)) (groupbys : List (Option String))
    (pd_score_columns : List String) :
    evaluate_targets calculator evaluator_flags target_columns mask_columns
        hyperparameters evaluator_propertys groupbys weights pd_score_columns =
      ((zip7 evaluator_flags mask_columns hyperparameters evaluator_propertys groupbys
          target_columns pd_score_columns).filter
        (fun s => s.flag ∈ recognizedFlags)).map (route1 calculator weights) := by
  rw [evaluate_targets]
  induction zip7 evaluator_flags mask_columns hyperparameters evaluator_propertys groupbys
      target_columns pd_score_columns with
  | nil => rfl
  | cons s rest ih =>
    rw [List.flatMap_cons, route_eq_if, ih]
    by_cases hs : s.flag ∈ recognizedFlags
    · rw [if_pos hs, List.filter_cons_of_pos (by simpa using hs), List.map_cons]
      rfl
    · rw [if_neg hs, List.filter_cons_of_neg (by simpa using hs)]
      rfl

theorem fdiv_ne_val_of_zero (a : ℚ) (q : ℚ) : fdiv a 0 ≠ PFloat.val q := by
  unfold fdiv
  rw [if_pos rfl]
  by_cases h0 : a = 0
  · simp [h0]
  · rw [if_neg h0]
    by_cases hp : 0 < a <;> simp [hp]

theorem sortedByScore_perm (df : List (ℚ × ℚ)) : (sortedByScore df).Perm df :=
  List.perm_insertionSort byScoreDesc df

theorem sortedByScore_snd_sum (df : List (ℚ × ℚ)) :
    ((sortedByScore df).map Prod.snd).sum = (df.map Prod.snd).sum :=
  ((sortedByScore_perm df).map Prod.snd).sum_eq

theorem sortedByScore_length (df : List (ℚ × ℚ)) :
    (sortedByScore df).length = df.length :=
  (sortedByScore_perm df).length_eq

/-- C3 (amended): when the target column sums to zero, the coverage
evaluators (top coverage and top-N-per-group coverage) return a
silently coerced non-finite float (NaN or ±inf from the zero-denominator
division) and raise nothing; no reported error condition exists. -/
theorem C3_zero_total_not_finite (df : List (ℚ × ℚ)) (df2 : List (TRow ℚ ℚ))
    (head_percentage : Option ℚ) (top_n : Option ℚ)
    (h1 : (df.map Prod.snd).sum = 0) (h2 : (df2.map (fun r => r.tval)).sum = 0) :
    (∀ q : ℚ, calculate_top_coverage df head_percentage ≠ PFloat.val q) ∧
    (∀ q : ℚ, calculate_top_n_coverage df2 top_n ≠ PFloat.val q) := by
  constructor
  · intro q
    unfold calculate_top_coverage evaluation_preprocessor
    rw [sortedByScore_snd_sum, h1]
    exact fdiv_ne_val_of_zero _ q
  · intro q
    unfold calculate_top_n_coverage evaluation_preprocessor
    rw [h2]
    exact fdiv_ne_val_of_zero _ q

/-- C3 witness: both conclusions at a concrete zero-total dataset. -/
theorem C3_zero_total_not_finite_witness :
    calculate_top_coverage [((1 : ℚ), (0 : ℚ)), (2, 0)] (some (1 / 2)) ≠ PFloat.val 0 ∧
    calculate_top_n_coverage [⟨1, 1, 0, 0⟩] (some 1) ≠ PFloat.val 0 :=
  ⟨(C3_zero_total_not_finite [((1 : ℚ), (0 : ℚ)), (2, 0)] [⟨1, 1, 0, 0⟩] (some (1 / 2))
      (some 1) (by norm_num) (by norm_num)).1 0,
   (C3_zero_total_not_finite [((1 : ℚ), (0 : ℚ)), (2, 0)] [⟨1, 1, 0, 0⟩] (some (1 / 2))
      (some 1) (by norm_num) (by norm_num)).2 0⟩

/-- C3 counterexample: at a concrete dataset whose target column sums to
zero, `calculate_top_coverage` returns NaN — a silently coerced value,
not a reported error, refuting the claim as stated. -/
theorem C3_counterexample :
    calculate_top_coverage [((1 : ℚ), (0 : ℚ)), (2, 0)] (some (1 / 2)) = PFloat.nan := by
  norm_num [calculate_top_coverage, evaluation_preprocessor, sortedByScore,
    List.insertionSort, List.orderedInsert, byScoreDesc, topRowsCount, intTrunc, ilocHead,
    fdiv]

theorem intTrunc_nonneg (q : ℚ) (h : 0 ≤ q) : 0 ≤ intTrunc q := by
  unfold intTrunc
  rw [if_pos h]
  exact Int.floor_nonneg.mpr h

theorem intTrunc_mono_nonneg (a b : ℚ) (ha : 0 ≤ a) (hab : a ≤ b) :
    intTrunc a ≤ intTrunc b := by
  unfold intTrunc
  rw [if_pos ha, if_pos (le_trans ha hab)]
  exact Int.floor_le_floor hab

theorem sum_take_mono (l : List ℚ) (hl : ∀ x ∈ l, 0 ≤ x) (m n : ℕ) (hmn : m ≤ n) :
    (l.take m).sum ≤ (l.take n).sum := by
  have hsplit : l.take n = l.take m ++ (l.drop m).take (n - m) := by
    rw [← List.take_add]
    congr 1
    omega
  rw [hsplit, List.sum_append]
  have h2 : 0 ≤ ((l.drop m).take (n - m)).sum := by
    apply List.sum_nonneg
    intro x hx
    exact hl x (List.mem_of_mem_drop (List.mem_of_mem_take hx))
  linarith

theorem countP_take_mono (l : List Bool) (m n : ℕ) (hmn : m ≤ n) :
    (l.take m).countP id ≤ (l.take n).countP id := by
  have h1 : l.take m = (l.take n).take m := by
    rw [List.take_take]
    congr 1
    omega
  rw [h1]
  exact List.Sublist.countP_le _ (List.take_sublist _ _)

theorem firstOccAux_length (seen : List ℚ) (l : List ℚ) :
    (firstOccAux seen l).length = l.length := by
  induction l generalizing seen with
  | nil => rfl
  | cons v rest ih => simp [firstOccAux, ih]

theorem countP_firstOccAux (l : List ℚ) (seen : List ℚ) :
    (firstOccAux seen l).countP id = (l.toFinset \ seen.toFinset).card := by
  induction l generalizing seen with
  | nil => simp [firstOccAux]
  | cons v rest ih =>
    have hsd : ((v :: rest).toFinset \ seen.toFinset) =
        if v ∈ seen then rest.toFinset \ (v :: seen).toFinset
        else insert v (rest.toFinset \ (v :: seen).toFinset) := by
      ext a
      by_cases hav : a = v
      · subst hav
        by_cases hvs : a ∈ seen <;> simp [hvs]
      · by_cases hv : v ∈ seen <;> simp [hv, hav]
    simp only [firstOccAux, List.countP_cons]
    rw [ih (v :: seen), hsd]
    by_cases hv : v ∈ seen
    · rw [if_pos hv, if_pos hv]
      simp
    · rw [if_neg hv, if_neg hv]
      rw [Finset.card_insert_of_not_mem (by simp)]
      simp

theorem countP_firstOccFlags (l : List ℚ) :
    (firstOccFlags l).countP id = l.dedup.length := by
  rw [firstOccFlags, countP_firstOccAux]
  simp [List.card_toFinset]

theorem dedup_snd_length_pos (df : List (ℚ × ℚ)) (hne : df ≠ []) :
    0 < (df.map Prod.snd).dedup.length := by
  rcases List.exists_mem_of_ne_nil df hne with ⟨p, hp⟩
  have h1 : p.2 ∈ (df.map Prod.snd).dedup :=
    List.mem_dedup.mpr (List.mem_map.mpr ⟨p, hp, rfl⟩)
  exact List.length_pos.mpr (List.ne_nil_of_mem h1)

theorem calculate_top_coverage_val (df : List (ℚ × ℚ)) (hp : ℚ)
    (htot : (df.map Prod.snd).sum ≠ 0) (hhp : 0 ≤ hp) :
    calculate_top_coverage df (some hp) =
      PFloat.val ((((sortedByScore df).map Prod.snd).take
          (intTrunc ((df.length : ℚ) * hp)).toNat).sum / (df.map Prod.snd).sum) := by
  unfold calculate_top_coverage evaluation_preprocessor
  simp only [Option.getD_some]
  rw [sortedByScore_snd_sum]
  have hc : (0 : ℤ) ≤ topRowsCount (sortedByScore df) hp := by
    apply intTrunc_nonneg
    have : (0 : ℚ) ≤ ((sortedByScore df).length : ℚ) := by positivity
    exact mul_nonneg this hhp
  unfold ilocHead
  rw [if_pos hc]
  rw [List.map_take]
  unfold topRowsCount
  rw [sortedByScore_length]
  unfold fdiv
  rw [if_neg htot]

theorem calculate_distinct_top_coverage_val (df : List (ℚ × ℚ)) (hp : ℚ)
    (hne : df ≠ []) (hhp : 0 ≤ hp) :
    calculate_distinct_top_coverage df (some hp) =
      PFloat.val (((((firstOccFlags ((sortedByScore df).map Prod.snd)).take
          (intTrunc ((df.length : ℚ) * hp)).toNat).countP id : ℕ) : ℚ) /
        (((df.map Prod.snd).dedup.length : ℕ) : ℚ)) := by
  have hden : (((df.map Prod.snd).dedup.length : ℕ) : ℚ) ≠ 0 := by
    have := dedup_snd_length_pos df hne
    positivity
  unfold calculate_distinct_top_coverage evaluation_preprocessor
  simp only [Option.getD_some]
  have hc : (0 : ℤ) ≤ topRowsCount df hp := by
    apply intTrunc_nonneg
    have : (0 : ℚ) ≤ (df.length : ℚ) := by positivity
    exact mul_nonneg this hhp
  unfold ilocHead
  rw [if_pos hc]
  unfold topRowsCount
  unfold fdiv
  rw [if_neg hden]

/-- C9 (amended): for every dataset whose target column is non-negative
with positive total (hence non-empty), top coverage and distinct top
coverage are monotonically non-decreasing in `head_percentage`, and both
return exactly 1.0 at `head_percentage = 1`.  (With negative target
values the monotonicity of top coverage fails, and with zero total the
value at 1 is NaN, so the restriction is necessary.) -/
theorem C9_coverage_monotone_and_full (df : List (ℚ × ℚ))
    (hnn : ∀ p ∈ df, 0 ≤ p.2) (hpos : 0 < (df.map Prod.snd).sum) :
    (∀ hp1 hp2 : ℚ, 0 ≤ hp1 → hp1 ≤ hp2 →
      ∃ q1 q2 : ℚ, calculate_top_coverage df (some hp1) = PFloat.val q1 ∧
        calculate_top_coverage df (some hp2) = PFloat.val q2 ∧ q1 ≤ q2) ∧
    calculate_top_coverage df (some 1) = PFloat.val 1 ∧
    (∀ hp1 hp2 : ℚ, 0 ≤ hp1 → hp1 ≤ hp2 →
      ∃ q1 q2 : ℚ, calculate_distinct_top_coverage df (some hp1) = PFloat.val q1 ∧
        calculate_distinct_top_coverage df (some hp2) = PFloat.val q2 ∧ q1 ≤ q2) ∧
    calculate_distinct_top_coverage df (some 1) = PFloat.val 1 := by
  have htot : (df.map Prod.snd).sum ≠ 0 := ne_of_gt hpos
  have hne : df ≠ [] := by
    intro hd
    rw [hd] at hpos
    simp at hpos
  have hlen : ∀ hp1 hp2 : ℚ, 0 ≤ hp1 → hp1 ≤ hp2 →
      (intTrunc ((df.length : ℚ) * hp1)).toNat ≤ (intTrunc ((df.length : ℚ) * hp2)).toNat := by
    intro hp1 hp2 h1 h12
    have hq : (0 : ℚ) ≤ (df.length : ℚ) * hp1 := by positivity
    have hmono := intTrunc_mono_nonneg _ _ hq
      (by
        apply mul_le_mul_of_nonneg_left h12
        positivity)
    omega
  have hsnn : ∀ x ∈ (sortedByScore df).map Prod.snd, 0 ≤ x := by
    intro x hx
    rcases List.mem_map.mp hx with ⟨p, hps, hpx⟩
    exact hpx ▸ hnn p ((sortedByScore_perm df).mem_iff.mp hps)
  have hfull : (intTrunc ((df.length : ℚ) * 1)).toNat = df.length := by
    rw [mul_one]
    unfold intTrunc
    rw [if_pos (by positivity)]
    rw [Int.floor_natCast]
    exact Int.toNat_natCast df.length
  refine ⟨?_, ?_, ?_, ?_⟩
  · intro hp1 hp2 h1 h12
    refine ⟨_, _, calculate_top_coverage_val df hp1 htot h1,
      calculate_top_coverage_val df hp2 htot (le_trans h1 h12), ?_⟩
    exact (div_le_div_iff_of_pos_right hpos).mpr
      (sum_take_mono ((sortedByScore df).map Prod.snd) hsnn _ _ (hlen hp1 hp2 h1 h12))
  · rw [calculate_top_coverage_val df 1 htot (by norm_num), hfull]
    have htk : ((sortedByScore df).map Prod.snd).take df.length =
        (sortedByScore df).map Prod.snd := by
      apply List.take_of_length_le
      rw [List.length_map, sortedByScore_length]
    rw [htk, sortedByScore_snd_sum, div_self htot]
  · intro hp1 hp2 h1 h12
    refine ⟨_, _, calculate_distinct_top_coverage_val df hp1 hne h1,
      calculate_distinct_top_coverage_val df hp2 hne (le_trans h1 h12), ?_⟩
    have hden : (0 : ℚ) < (((df.map Prod.snd).dedup.length : ℕ) : ℚ) := by
      have := dedup_snd_length_pos df hne
      positivity
    apply (div_le_div_iff_of_pos_right hden).mpr
    exact_mod_cast countP_take_mono (firstOccFlags ((sortedByScore df).map Prod.snd)) _ _
      (hlen hp1 hp2 h1 h12)
  · rw [calculate_distinct_top_coverage_val df 1 hne (by norm_num), hfull]
    have hlen2 : (firstOccFlags ((sortedByScore df).map Prod.snd)).length = df.length := by
      rw [firstOccFlags, firstOccAux_length, List.length_map, sortedByScore_length]
    rw [List.take_of_length_le (le_of_eq hlen2), countP_firstOccFlags]
    have hdedupeq : ((sortedByScore df).map Prod.snd).dedup.length =
        (df.map Prod.snd).dedup.length := by
      rw [← List.card_toFinset, ← List.card_toFinset]
      congr 1
      exact List.toFinset_eq_of_perm _ _ ((sortedByScore_perm df).map Prod.snd)
    rw [hdedupeq, div_self]
    have := dedup_snd_length_pos df hne
    positivity

/-- C9 witness: both evaluators return exactly 1.0 at
`head_percentage = 1` on a concrete dataset satisfying the
hypotheses. -/
theorem C9_coverage_witness :
    calculate_top_coverage [((1 : ℚ), (2 : ℚ))] (some 1) = PFloat.val 1 ∧
    calculate_distinct_top_coverage [((1 : ℚ), (2 : ℚ))] (some 1) = PFloat.val 1 :=
  ⟨(C9_coverage_monotone_and_full [((1 : ℚ), (2 : ℚ))] (by norm_num) (by norm_num)).2.1,
   (C9_coverage_monotone_and_full [((1 : ℚ), (2 : ℚ))] (by norm_num) (by norm_num)).2.2.2⟩

/-- C9 counterexample: with a negative target value, top coverage
decreases from 0 to -1 as `head_percentage` grows from 1/4 to 1/2, so
monotonicity fails for an arbitrary dataset as the claim states it. -/
theorem C9_counterexample :
    calculate_top_coverage [((2 : ℚ), -1), (1, 2)] (some (1 / 4)) = PFloat.val 0 ∧
    calculate_top_coverage [((2 : ℚ), -1), (1, 2)] (some (1 / 2)) = PFloat.val (-1) ∧
    ¬ ((0 : ℚ) ≤ -1) := by
  refine ⟨?_, ?_, by norm_num⟩ <;>
    norm_num [calculate_top_coverage, evaluation_preprocessor, sortedByScore,
      List.insertionSort, List.orderedInsert, byScoreDesc, topRowsCount, intTrunc,
      ilocHead, fdiv]

/-- C10: the bin cache of the tau evaluator is keyed by target column
name only.  First conjunct: a call on a state without a cached mapping
for the target stores the binning computed with that call's `num_bins`.
Remaining conjuncts: on a state whose cache holds `b` for the target,
the selected binning is independent of the `num_bins` argument, equals
the cached `b` with the cache unchanged, and the grouped branch writes
exactly `b` into the `{target}_bin` column. -/
theorem C10_bin_cache_target_keyed (c c2 : CalcState) (t : String) (g1 : Option String)
    (g2 : String) (nb1 nb2 nb3 : Option ℚ) (pd1 pd2 : String) (b : List ℚ)
    (hmiss : lookupBins c.bin_mappings t = none)
    (hhit : lookupBins c2.bin_mappings t = some b) :
    (calculate_tau c t g1 nb1 pd1).2.bin_mappings =
      c.bin_mappings ++ [(t, map_to_bins (getCol c.df t) (resolveNumBins c t nb1))] ∧
    tau_label_bins c2 t (resolveNumBins c2 t nb2) =
      tau_label_bins c2 t (resolveNumBins c2 t nb3) ∧
    tau_label_bins c2 t (resolveNumBins c2 t nb2) = (b, c2.bin_mappings) ∧
    (calculate_tau c2 t (some g2) nb2 pd2).2 =
      ⟨setCol c2.df (t ++ "_bin") b, c2.bin_mappings⟩ := by
  have h1 : ∀ nb : ℤ, tau_label_bins c2 t nb = (b, c2.bin_mappings) := by
    intro nb
    unfold tau_label_bins
    rw [hhit]
  have h0 : ∀ nb : ℤ, tau_label_bins c t nb =
      (map_to_bins (getCol c.df t) nb, c.bin_mappings ++ [(t, map_to_bins (getCol c.df t) nb)]) := by
    intro nb
    unfold tau_label_bins
    rw [hmiss]
  refine ⟨?_, by rw [h1, h1], h1 _, ?_⟩
  · cases g1 with
    | none =>
        show (tau_label_bins c t (resolveNumBins c t nb1)).2 = _
        rw [h0]
    | some g =>
        show (tau_label_bins c t (resolveNumBins c t nb1)).2 = _
        rw [h0]
  · show (⟨setCol c2.df (t ++ "_bin") (tau_label_bins c2 t (resolveNumBins c2 t nb2)).1,
        (tau_label_bins c2 t (resolveNumBins c2 t nb2)).2⟩ : CalcState) = _
    rw [h1]

/-- C10 witness: the theorem instantiated at a concrete pair of
calculator states (one with an empty cache, one whose cache holds
`[7, 8]` for the target). -/
theorem C10_bin_cache_witness :
    tau_label_bins ⟨[("t", [1, 2]), ("s", [3, 4])], [("t", [7, 8])]⟩ "t"
        (resolveNumBins ⟨[("t", [1, 2]), ("s", [3, 4])], [("t", [7, 8])]⟩ "t" (some 5)) =
      ([7, 8], [("t", [7, 8])]) :=
  (C10_bin_cache_target_keyed ⟨[("t", [1, 2]), ("s", [3, 4])], []⟩
    ⟨[("t", [1, 2]), ("s", [3, 4])], [("t", [7, 8])]⟩ "t" none "g" (some 2) (some 5)
    (some 9) "s" "s" [7, 8] (by simp [lookupBins]) (by simp [lookupBins])).2.2.1

theorem getCol_setCol_ne (df : List (String × List ℚ)) (n name : String)
    (col : List ℚ) (hne : name ≠ n) :
    getCol (setCol df n col) name = getCol df name := by
  induction df with
  | nil =>
    simp only [setCol, getCol]
    rw [if_neg (fun h => hne h.symm)]
  | cons p rest ih =>
    by_cases hp : p.1 = n
    · simp only [setCol, if_pos hp, getCol]
      rw [if_neg (fun h => hne h.symm), if_neg (fun h => hne (hp ▸ h).symm)]
    · simp only [setCol, if_neg hp, getCol]
      by_cases hpn : p.1 = name
      · rw [if_pos hpn, if_pos hpn]
      · rw [if_neg hpn, if_neg hpn]
        exact ih

/-- C4 (amended): the coverage evaluators and the ungrouped tau
evaluator leave the dataframe unchanged (the coverage evaluators are
pure by construction; the ungrouped tau call returns the dataframe
untouched), but the tau evaluator with a grouping column writes the
`{target}_bin` column into the dataframe; every other column is
unchanged. -/
theorem C4_evaluator_frame (c : CalcState) (t pd : String) (nb : Option ℚ) :
    ((calculate_tau c t none nb pd).2.df = c.df) ∧
    (∀ g : String, ∀ name : String, name ≠ t ++ "_bin" →
      getCol (calculate_tau c t (some g) nb pd).2.df name = getCol c.df name) := by
  constructor
  · rfl
  · intro g name hne
    show getCol (setCol c.df (t ++ "_bin")
        (tau_label_bins c t (resolveNumBins c t nb)).1) name = getCol c.df name
    exact getCol_setCol_ne _ _ _ _ hne

/-- C4 witness: the frame property at a concrete state and column. -/
theorem C4_evaluator_frame_witness :
    getCol (calculate_tau ⟨[("g", [1, 1]), ("t", [1, 2]), ("s", [1, 2])], []⟩ "t"
        (some "g") (some 2) "s").2.df "s" =
      getCol [("g", [1, 1]), ("t", [1, 2]), ("s", [1, 2])] "s" :=
  (C4_evaluator_frame ⟨[("g", [1, 1]), ("t", [1, 2]), ("s", [1, 2])], []⟩ "t" "s"
    (some 2)).2 "g" "s" (by simp)

/-- C4 counterexample: a grouped tau call on a concrete three-column
dataframe returns a dataframe with a fourth column `t_bin`, so the
dataset is not left unchanged and the evaluator is not pure in the
dataframe. -/
theorem C4_counterexample :
    (calculate_tau ⟨[("g", [1, 1]), ("t", [1, 2]), ("s", [1, 2])], []⟩ "t" (some "g")
        (some 2) "s").2.df ≠ [("g", [1, 1]), ("t", [1, 2]), ("s", [1, 2])] := by
  have h0 : (calculate_tau ⟨[("g", [1, 1]), ("t", [1, 2]), ("s", [1, 2])], []⟩ "t"
      (some "g") (some 2) "s").2.df =
      setCol [("g", [1, 1]), ("t", [1, 2]), ("s", [1, 2])] ("t" ++ "_bin")
        (tau_label_bins ⟨[("g", [1, 1]), ("t", [1, 2]), ("s", [1, 2])], []⟩ "t"
          (resolveNumBins ⟨[("g", [1, 1]), ("t", [1, 2]), ("s", [1, 2])], []⟩ "t"
            (some 2))).1 := rfl
  rw [h0]
  intro heq
  have hlen := congrArg List.length heq
  simp [setCol] at hlen

theorem qsign_abs_le_one (q : ℚ) : |qsign q| ≤ 1 := by
  unfold qsign
  split
  · simp
  · split <;> simp

theorem qsign_zero : qsign 0 = 0 := by
  unfold qsign
  norm_num

theorem abs_sum_le_countP_not {α : Type} (ps : List α) (f : α → ℤ) (p : α → Bool)
    (hf1 : ∀ a ∈ ps, |f a| ≤ 1) (hf0 : ∀ a ∈ ps, p a = true → f a = 0) :
    |(ps.map f).sum| ≤ (ps.countP (fun a => ! p a) : ℤ) := by
  induction ps with
  | nil => simp
  | cons a rest ih =>
    rw [List.map_cons, List.sum_cons, List.countP_cons]
    have h1 := hf1 a (List.mem_cons_self a rest)
    have ihr := ih (fun x hx => hf1 x (List.mem_cons_of_mem a hx))
      (fun x hx => hf0 x (List.mem_cons_of_mem a hx))
    by_cases hp : p a = true
    · rw [hf0 a (List.mem_cons_self a rest) hp]
      simp only [hp, Bool.not_true, zero_add]
      calc |(rest.map f).sum| ≤ (rest.countP (fun a => ! p a) : ℤ) := ihr
        _ ≤ _ := by simp
    · have hb : (! p a) = true := by
        simp [hp]
      rw [hb, if_pos rfl]
      push_cast
      calc |f a + (rest.map f).sum| ≤ |f a| + |(rest.map f).sum| := abs_add _ _
        _ ≤ 1 + (rest.countP (fun a => ! p a) : ℤ) := add_le_add h1 ihr
        _ = (rest.countP (fun a => ! p a) : ℤ) + 1 := by ring

theorem countP_not_eq_length_sub {α : Type} (ps : List α) (p : α → Bool) :
    ps.countP (fun a => ! p a) = ps.length - ps.countP p := by
  induction ps with
  | nil => simp
  | cons a rest ih =>
    rw [List.countP_cons, List.countP_cons, List.length_cons, ih]
    have := List.countP_le_length p (l := rest)
    have hle := List.countP_le_length p (l := rest)
    by_cases hp : p a = true
    · rw [if_pos hp, if_neg (show ¬((!p a) = true) by rw [hp]; simp)]
      omega
    · rw [if_neg hp, if_pos (show (!p a) = true by simp [hp])]
      omega

theorem tauStats_some_bounds (x y : List ℚ) (c : ℤ) (a b : ℕ)
    (h : tauStats x y = some (c, a, b)) :
    |c| ≤ (a : ℤ) ∧ |c| ≤ (b : ℤ) ∧ 1 ≤ a ∧ 1 ≤ b := by
  unfold tauStats at h
  set ps := listPairs (x.zip y) with hps
  by_cases hcond : ps.countP (fun p => p.1.1 = p.2.1) = ps.length ∨
      ps.countP (fun p => p.1.2 = p.2.2) = ps.length
  · rw [if_pos hcond] at h
    exact absurd h (by simp)
  · rw [if_neg hcond] at h
    push_neg at hcond
    injection h with h
    rw [Prod.ext_iff] at h
    obtain ⟨h1, h23⟩ := h
    rw [Prod.ext_iff] at h23
    obtain ⟨h2, h3⟩ := h23
    dsimp only at h1 h2 h3
    have hxle := List.countP_le_length (fun p : (ℚ × ℚ) × (ℚ × ℚ) => p.1.1 = p.2.1)
      (l := ps)
    have hyle := List.countP_le_length (fun p : (ℚ × ℚ) × (ℚ × ℚ) => p.1.2 = p.2.2)
      (l := ps)
    have hf1 : ∀ p ∈ ps, |qsign (p.2.1 - p.1.1) * qsign (p.2.2 - p.1.2)| ≤ 1 := by
      intro p _
      rw [abs_mul]
      have u1 := qsign_abs_le_one (p.2.1 - p.1.1)
      have u2 := qsign_abs_le_one (p.2.2 - p.1.2)
      have ha1 : 0 ≤ |qsign (p.2.1 - p.1.1)| := abs_nonneg _
      have ha2 : 0 ≤ |qsign (p.2.2 - p.1.2)| := abs_nonneg _
      nlinarith
    have hbx : |(ps.map (fun p => qsign (p.2.1 - p.1.1) * qsign (p.2.2 - p.1.2))).sum| ≤
        (ps.countP (fun p => !(decide (p.1.1 = p.2.1))) : ℤ) := by
      apply abs_sum_le_countP_not ps _ _ hf1
      intro p _ hp
      have hpe : p.1.1 = p.2.1 := of_decide_eq_true hp
      rw [show p.2.1 - p.1.1 = 0 by rw [hpe]; ring, qsign_zero, zero_mul]
    have hby : |(ps.map (fun p => qsign (p.2.1 - p.1.1) * qsign (p.2.2 - p.1.2))).sum| ≤
        (ps.countP (fun p => !(decide (p.1.2 = p.2.2))) : ℤ) := by
      apply abs_sum_le_countP_not ps _ _ hf1
      intro p _ hp
      have hpe : p.1.2 = p.2.2 := of_decide_eq_true hp
      rw [show p.2.2 - p.1.2 = 0 by rw [hpe]; ring, qsign_zero, mul_zero]
    rw [countP_not_eq_length_sub] at hbx hby
    refine ⟨?_, ?_, by omega, by omega⟩
    · rw [← h1, ← h2]
      exact hbx
    · rw [← h1, ← h3]
      exact hby

theorem tauOfStats_bound (c : ℤ) (a b : ℕ) (r : ℝ)
    (h1 : |c| ≤ (a : ℤ)) (h2 : |c| ≤ (b : ℤ)) (ha : 1 ≤ a) (hb : 1 ≤ b)
    (hr : tauOfStats (some (c, a, b)) = some r) : -1 ≤ r ∧ r ≤ 1 := by
  unfold tauOfStats at hr
  injection hr with hr
  have haR : (0 : ℝ) < (a : ℝ) := by exact_mod_cast Nat.lt_of_lt_of_le Nat.zero_lt_one ha
  have hbR : (0 : ℝ) < (b : ℝ) := by exact_mod_cast Nat.lt_of_lt_of_le Nat.zero_lt_one hb
  have hd : (0 : ℝ) < Real.sqrt a * Real.sqrt b := by
    apply mul_pos <;> exact Real.sqrt_pos.mpr (by assumption)
  have h1R : |(c : ℝ)| ≤ (a : ℝ) := by
    rw [← Int.cast_abs]
    exact_mod_cast h1
  have h2R : |(c : ℝ)| ≤ (b : ℝ) := by
    rw [← Int.cast_abs]
    exact_mod_cast h2
  have hsq : ((c : ℝ))^2 ≤ (a : ℝ) * (b : ℝ) := by
    have := abs_nonneg (c : ℝ)
    nlinarith [sq_abs (c : ℝ)]
  have hcle : |(c : ℝ)| ≤ Real.sqrt a * Real.sqrt b := by
    rw [← Real.sqrt_mul (le_of_lt haR)]
    calc |(c : ℝ)| = Real.sqrt (((c : ℝ))^2) := (Real.sqrt_sq_eq_abs _).symm
      _ ≤ Real.sqrt ((a : ℝ) * (b : ℝ)) := Real.sqrt_le_sqrt hsq
  have habs : |r| ≤ 1 := by
    rw [← hr, abs_div, abs_of_pos hd, div_le_one hd]
    exact hcle
  exact abs_le.mp habs

theorem kendalltau_bound (x y : List ℚ) (r : ℝ) (h : kendalltau x y = some r) :
    -1 ≤ r ∧ r ≤ 1 := by
  unfold kendalltau at h
  rcases hst : tauStats x y with _ | ⟨c, a, b⟩
  · rw [hst] at h
    exact absurd h (by simp [tauOfStats])
  · rw [hst] at h
    obtain ⟨h1, h2, ha, hb⟩ := tauStats_some_bounds x y c a b hst
    exact tauOfStats_bound c a b r h1 h2 ha hb h

theorem mean_in_unit_interval (l : List ℝ) (hne : l ≠ [])
    (hb : ∀ v ∈ l, -1 ≤ v ∧ v ≤ 1) (n : ℕ) (hn : n = l.length) :
    -1 ≤ l.sum / (n : ℝ) ∧ l.sum / (n : ℝ) ≤ 1 := by
  subst hn
  have hlp : 0 < l.length := List.length_pos.mpr hne
  have hn : (0 : ℝ) < (l.length : ℝ) := by exact_mod_cast hlp
  have hupper : l.sum ≤ (l.length : ℝ) := by
    calc l.sum ≤ l.length • (1 : ℝ) := List.sum_le_card_nsmul l 1 (fun x hx => (hb x hx).2)
      _ = (l.length : ℝ) := by simp
  have hlower : -(l.length : ℝ) ≤ l.sum := by
    have := List.card_nsmul_le_sum l (-1 : ℝ) (fun x hx => (hb x hx).1)
    simpa using this
  constructor
  · rw [le_div_iff₀ hn]
    linarith
  · rw [div_le_one hn]
    exact hupper

theorem groupedTauMean_bound (gcol bc pc : List ℚ) (r : ℝ)
    (h : groupedTauMean gcol bc pc = some r) : -1 ≤ r ∧ r ≤ 1 := by
  unfold groupedTauMean at h
  dsimp only at h
  split at h
  · exact absurd h (by simp)
  · rename_i hkeys
    split at h
    · rename_i hall
      injection h with h
      rw [← h]
      apply mean_in_unit_interval
      · simp [hkeys]
      · intro v hv
        rw [List.mem_map] at hv
        obtain ⟨t, ht, htv⟩ := hv
        rw [List.mem_map] at ht
        obtain ⟨g, _, hgt⟩ := ht
        rw [List.all_eq_true] at hall
        have hsome := hall t (by
          rw [List.mem_map]
          exact ⟨g, by assumption, hgt⟩)
        rcases htt : t with _ | v0
        · rw [htt] at hsome
          simp at hsome
        · have : v = v0 := by
            rw [← htv, htt]
            rfl
          subst this
          apply kendalltau_bound (selectWhere gcol g bc) (selectWhere gcol g pc)
          rw [← htt, hgt]
      · simp
    · exact absurd h (by simp)

theorem pairwise_lt_of_sorted_nodup (l : List ℚ) (hs : l.Pairwise (· ≤ ·))
    (hnd : l.Nodup) : l.Pairwise (· < ·) :=
  (hs.and hnd).imp (fun h => lt_of_le_of_ne h.1 h.2)

theorem getD_lt_getD_of_pairwise_lt (s : List ℚ) (hp : s.Pairwise (· < ·)) (i j : ℕ)
    (hj : j < s.length) (hij : i < j) : s.getD i 0 < s.getD j 0 := by
  have hi : i < s.length := lt_trans hij hj
  rw [List.getD_eq_getElem s 0 hi, List.getD_eq_getElem s 0 hj]
  exact List.pairwise_iff_get.mp hp ⟨i, hi⟩ ⟨j, hj⟩ hij

theorem getD_le_getD_of_pairwise_lt (s : List ℚ) (hp : s.Pairwise (· < ·)) (i j : ℕ)
    (hj : j < s.length) (hij : i ≤ j) : s.getD i 0 ≤ s.getD j 0 := by
  rcases lt_or_eq_of_le hij with h | h
  · exact le_of_lt (getD_lt_getD_of_pairwise_lt s hp i j hj h)
  · rw [h]

theorem indexOf_lt_indexOf_of_lt (s : List ℚ) (hp : s.Pairwise (· < ·)) (v w : ℚ)
    (hv : v ∈ s) (hw : w ∈ s) (hvw : v < w) : s.indexOf v < s.indexOf w := by
  have hvl : s.indexOf v < s.length := List.indexOf_lt_length.mpr hv
  have hwl : s.indexOf w < s.length := List.indexOf_lt_length.mpr hw
  by_contra hcon
  push_neg at hcon
  rcases lt_or_eq_of_le hcon with h | h
  · have := getD_lt_getD_of_pairwise_lt s hp _ _ hvl h
    rw [List.getD_eq_getElem s 0 hvl, List.getD_eq_getElem s 0 hwl,
      List.getElem_indexOf, List.getElem_indexOf] at this
    exact absurd hvw (not_lt_of_lt this)
  · have : s.getD (s.indexOf w) 0 = s.getD (s.indexOf v) 0 := by rw [h]
    rw [List.getD_eq_getElem s 0 hvl, List.getD_eq_getElem s 0 hwl,
      List.getElem_indexOf, List.getElem_indexOf] at this
    exact absurd (this ▸ hvw) (lt_irrefl w)

theorem nodup_iff_getD (l : List ℚ) :
    l.Nodup ↔ ∀ i j, i < l.length → j < l.length → i ≠ j → l.getD i 0 ≠ l.getD j 0 := by
  rw [List.nodup_iff_injective_get]
  constructor
  · intro hinj i j hi hj hij heq
    rw [List.getD_eq_getElem l 0 hi, List.getD_eq_getElem l 0 hj] at heq
    have := @hinj ⟨i, hi⟩ ⟨j, hj⟩ (by simpa using heq)
    exact hij (by simpa using this)
  · intro hg a b heq
    by_contra hne
    have hab : a.1 ≠ b.1 := fun h => hne (Fin.ext h)
    apply hg a.1 b.1 a.2 b.2 hab
    rw [List.getD_eq_getElem l 0 a.2, List.getD_eq_getElem l 0 b.2]
    simpa using heq

theorem binCuts_eq (nzd : List ℚ) (num_bins : ℤ)
    (hm : 1 ≤ nzd.length) (hnb : (nzd.length : ℤ) ≤ num_bins) :
    binCuts nzd num_bins =
      (List.range (nzd.length - 1)).map
        (fun j => np_quantile nzd (((j + 1 : ℕ) : ℚ) / (nzd.length : ℚ))) := by
  unfold binCuts
  rw [min_eq_right hnb]
  have htn : ((nzd.length : ℤ) + 1).toNat = nzd.length + 1 := by omega
  rw [htn]
  unfold np_linspace01
  rw [if_neg (by omega)]
  have hcast : ((nzd.length + 1 : ℕ) : ℚ) - 1 = (nzd.length : ℚ) := by
    push_cast
    ring
  rw [hcast]
  rw [List.range_succ_eq_map]
  have hdrop : (((0 : ℕ) :: List.map Nat.succ (List.range nzd.length)).map
      (fun i : ℕ => (i : ℚ) / (nzd.length : ℚ))).drop 1 =
      ((List.range nzd.length).map Nat.succ).map
        (fun i : ℕ => (i : ℚ) / (nzd.length : ℚ)) := by
    rw [List.map_cons, List.drop_succ_cons, List.drop_zero]
  rw [hdrop, List.map_map]
  obtain ⟨m1, hm1⟩ : ∃ m1, nzd.length = m1 + 1 := ⟨nzd.length - 1, by omega⟩
  rw [hm1]
  rw [show List.range (m1 + 1) = List.range m1 ++ [m1] from List.range_succ m1]
  rw [List.map_append]
  simp only [List.map_cons, List.map_nil]
  rw [List.dropLast_concat, List.map_map]
  simp only [Nat.add_sub_cancel]
  apply List.map_congr_left
  intro j _
  simp only [Function.comp_apply, Nat.succ_eq_add_one]

theorem np_quantile_between (nzd : List ℚ) (j : ℕ)
    (hsort : (List.insertionSort (· ≤ ·) nzd).Pairwise (· < ·))
    (hj : j < nzd.length - 1) :
    (List.insertionSort (· ≤ ·) nzd).getD j 0 <
        np_quantile nzd (((j + 1 : ℕ) : ℚ) / (nzd.length : ℚ)) ∧
      np_quantile nzd (((j + 1 : ℕ) : ℚ) / (nzd.length : ℚ)) <
        (List.insertionSort (· ≤ ·) nzd).getD (j + 1) 0 := by
  have hm2 : 2 ≤ nzd.length := by omega
  have hM : (0 : ℚ) < (nzd.length : ℚ) := by
    have h0 : 0 < nzd.length := by omega
    exact_mod_cast h0
  have hjq : ((j : ℚ) + 1) + 1 ≤ (nzd.length : ℚ) := by
    have h0 : j + 2 ≤ nzd.length := by omega
    exact_mod_cast h0
  have hh1 : (j : ℚ) <
      (((j + 1 : ℕ) : ℚ) / (nzd.length : ℚ)) * ((nzd.length : ℚ) - 1) := by
    rw [div_mul_eq_mul_div, lt_div_iff₀ hM]
    push_cast
    nlinarith
  have hh2 : (((j + 1 : ℕ) : ℚ) / (nzd.length : ℚ)) * ((nzd.length : ℚ) - 1) <
      (j : ℚ) + 1 := by
    rw [div_mul_eq_mul_div, div_lt_iff₀ hM]
    push_cast
    nlinarith
  have hfloor :
      ⌊(((j + 1 : ℕ) : ℚ) / (nzd.length : ℚ)) * ((nzd.length : ℚ) - 1)⌋ = (j : ℤ) := by
    rw [Int.floor_eq_iff]
    constructor
    · exact_mod_cast le_of_lt hh1
    · exact_mod_cast hh2
  unfold np_quantile
  dsimp only
  rw [hfloor, Int.toNat_natCast]
  rw [show (j + 1) ⊓ (nzd.length - 1) = j + 1 by omega]
  set s := List.insertionSort (· ≤ ·) nzd with hsdef
  have hslen : s.length = nzd.length := List.length_insertionSort _ nzd
  have hsj : s.getD j 0 < s.getD (j + 1) 0 := by
    apply getD_lt_getD_of_pairwise_lt s hsort
    · omega
    · omega
  have hgam0 : (0 : ℚ) <
      (((j + 1 : ℕ) : ℚ) / (nzd.length : ℚ)) * ((nzd.length : ℚ) - 1) - ((j : ℕ) : ℚ) := by
    push_cast
    push_cast at hh1
    linarith
  have hgam1 :
      (((j + 1 : ℕ) : ℚ) / (nzd.length : ℚ)) * ((nzd.length : ℚ) - 1) - ((j : ℕ) : ℚ)
        < 1 := by
    push_cast
    push_cast at hh2
    linarith
  constructor
  · nlinarith [hsj]
  · nlinarith [hsj]

theorem countP_range_lt (n r : ℕ) :
    (List.range n).countP (fun j => j < r) = min r n := by
  induction n with
  | zero => simp
  | succ n ih =>
    rw [List.range_succ, List.countP_append, ih]
    by_cases h : n < r
    · rw [show List.countP (fun j => j < r) [n] = 1 by simp [h]]
      omega
    · rw [show List.countP (fun j => j < r) [n] = 0 by simp [h]]
      omega

theorem countP_cuts_rank (nzd : List ℚ) (num_bins : ℤ) (hnd : nzd.Nodup)
    (hm : 1 ≤ nzd.length) (hnb : (nzd.length : ℤ) ≤ num_bins) (r : ℕ)
    (hr : r < nzd.length) :
    (binCuts nzd num_bins).countP
        (fun cut => cut ≤ (List.insertionSort (· ≤ ·) nzd).getD r 0) = r := by
  have hsort : (List.insertionSort (· ≤ ·) nzd).Pairwise (· < ·) :=
    pairwise_lt_of_sorted_nodup _ (List.sorted_insertionSort _ nzd)
      ((List.perm_insertionSort _ nzd).nodup_iff.mpr hnd)
  have hslen : (List.insertionSort (· ≤ ·) nzd).length = nzd.length :=
    List.length_insertionSort _ nzd
  rw [binCuts_eq nzd num_bins hm hnb, List.countP_map]
  have hcong : ∀ jj ∈ List.range (nzd.length - 1),
      (((fun cut => decide (cut ≤ (List.insertionSort (· ≤ ·) nzd).getD r 0)) ∘
        (fun j => np_quantile nzd (((j + 1 : ℕ) : ℚ) / (nzd.length : ℚ)))) jj = true ↔
      (fun j => decide (j < r)) jj = true) := by
    intro jj hjj
    have hjlt : jj < nzd.length - 1 := List.mem_range.mp hjj
    obtain ⟨hlow, hhigh⟩ := np_quantile_between nzd jj hsort hjlt
    simp only [Function.comp_apply, decide_eq_true_eq]
    constructor
    · intro hle
      by_contra hge
      push_neg at hge
      have hsr : (List.insertionSort (· ≤ ·) nzd).getD r 0 ≤
          (List.insertionSort (· ≤ ·) nzd).getD jj 0 :=
        getD_le_getD_of_pairwise_lt _ hsort r jj (by omega) hge
      linarith
    · intro hlt
      have hsr : (List.insertionSort (· ≤ ·) nzd).getD (jj + 1) 0 ≤
          (List.insertionSort (· ≤ ·) nzd).getD r 0 :=
        getD_le_getD_of_pairwise_lt _ hsort (jj + 1) r (by omega) (by omega)
      linarith
  rw [List.countP_congr hcong, countP_range_lt]
  omega

theorem map_to_bins_orderIso (data : List ℚ) (num_bins : ℤ) (hnd : data.Nodup)
    (hnn : ∀ v ∈ data, 0 ≤ v) (hlen2 : 2 ≤ data.length)
    (hnb : ((nonZeroPart data).length : ℤ) ≤ num_bins) :
    (map_to_bins data num_bins).length = data.length ∧
    ∀ i j, i < data.length → j < data.length →
      ((map_to_bins data num_bins).getD i 0 < (map_to_bins data num_bins).getD j 0 ↔
        data.getD i 0 < data.getD j 0) := by
  have hnz : ¬ (data.all (fun v => v = 0)) = true := by
    intro hall
    rw [List.all_eq_true] at hall
    obtain ⟨a, b, rest, hd⟩ : ∃ a b rest, data = a :: b :: rest := by
      rcases data with _ | ⟨a, tl⟩
      · simp at hlen2
      · rcases tl with _ | ⟨b, rest⟩
        · simp at hlen2
        · exact ⟨a, b, rest, rfl⟩
    have ha : a = 0 := by simpa using hall a (by rw [hd]; exact List.mem_cons_self _ _)
    have hb : b = 0 := by
      simpa using hall b (by rw [hd]; exact List.mem_cons_of_mem _ (List.mem_cons_self _ _))
    rw [hd] at hnd
    rw [List.nodup_cons] at hnd
    exact hnd.1 (by rw [ha, hb]; exact List.mem_cons_self _ _)
  have hne0 : ¬ data.length = 0 := by omega
  have hmain : map_to_bins data num_bins = data.map (fun v => if v = 0 then 0
      else (((binCuts (nonZeroPart data) num_bins).countP (fun c => c ≤ v) : ℕ) : ℚ) + 1) := by
    unfold map_to_bins
    rw [if_neg hne0, if_neg hnz]
  set f : ℚ → ℚ := (fun v => if v = 0 then 0
      else (((binCuts (nonZeroPart data) num_bins).countP (fun c => c ≤ v) : ℕ) : ℚ) + 1)
    with hf
  have hnzd_nodup : (nonZeroPart data).Nodup := List.Nodup.filter _ hnd
  have hnzd_m1 : 1 ≤ (nonZeroPart data).length := by
    have hxz : ∃ v ∈ data, v ≠ 0 := by
      by_contra hcon
      push_neg at hcon
      exact hnz (by rw [List.all_eq_true]; intro x hx; simpa using hcon x hx)
    obtain ⟨v, hv, hvz⟩ := hxz
    have : v ∈ nonZeroPart data := List.mem_filter.mpr ⟨hv, by simpa using hvz⟩
    have := List.length_pos.mpr (List.ne_nil_of_mem this)
    omega
  have hmono : ∀ v ∈ data, ∀ w ∈ data, v < w → f v < f w := by
    intro v hv w hw hvw
    have hw0 : 0 ≤ w := hnn w hw
    by_cases hvz : v = 0
    · have hwz : w ≠ 0 := by
        intro h
        rw [hvz, h] at hvw
        exact lt_irrefl 0 hvw
      rw [hf]
      simp only [if_pos hvz, if_neg hwz]
      positivity
    · have hv0 : 0 < v := lt_of_le_of_ne (hnn v hv) (Ne.symm hvz)
      have hwz : w ≠ 0 := by
        intro h
        rw [h] at hvw
        exact absurd (lt_trans hv0 hvw) (lt_irrefl 0)
      have hvm : v ∈ nonZeroPart data := List.mem_filter.mpr ⟨hv, by simpa using hvz⟩
      have hwm : w ∈ nonZeroPart data := List.mem_filter.mpr ⟨hw, by simpa using hwz⟩
      set s := List.insertionSort (· ≤ ·) (nonZeroPart data) with hs
      have hvs : v ∈ s := (List.perm_insertionSort _ _).mem_iff.mpr hvm
      have hws : w ∈ s := (List.perm_insertionSort _ _).mem_iff.mpr hwm
      have hsort : s.Pairwise (· < ·) :=
        pairwise_lt_of_sorted_nodup _ (List.sorted_insertionSort _ _)
          ((List.perm_insertionSort _ _).nodup_iff.mpr hnzd_nodup)
      have hslen : s.length = (nonZeroPart data).length := List.length_insertionSort _ _
      have hvlt : s.indexOf v < s.length := List.indexOf_lt_length.mpr hvs
      have hwlt : s.indexOf w < s.length := List.indexOf_lt_length.mpr hws
      have hgv : s.getD (s.indexOf v) 0 = v := by
        rw [List.getD_eq_getElem s 0 hvlt, List.getElem_indexOf]
      have hgw : s.getD (s.indexOf w) 0 = w := by
        rw [List.getD_eq_getElem s 0 hwlt, List.getElem_indexOf]
      have hrv : (binCuts (nonZeroPart data) num_bins).countP (fun c => c ≤ v) =
          s.indexOf v := by
        have := countP_cuts_rank (nonZeroPart data) num_bins hnzd_nodup hnzd_m1 hnb
          (s.indexOf v) (by omega)
        rw [← hs, hgv] at this
        exact this
      have hrw : (binCuts (nonZeroPart data) num_bins).countP (fun c => c ≤ w) =
          s.indexOf w := by
        have := countP_cuts_rank (nonZeroPart data) num_bins hnzd_nodup hnzd_m1 hnb
          (s.indexOf w) (by omega)
        rw [← hs, hgw] at this
        exact this
      have hio : s.indexOf v < s.indexOf w :=
        indexOf_lt_indexOf_of_lt s hsort v w hvs hws hvw
      rw [hf]
      simp only [if_neg hvz, if_neg hwz]
      rw [hrv, hrw]
      have : (s.indexOf v : ℚ) < (s.indexOf w : ℚ) := by exact_mod_cast hio
      linarith
  rw [hmain]
  constructor
  · rw [List.length_map]
  · intro i j hi hj
    have hgi : (data.map f).getD i 0 = f (data.getD i 0) := by
      rw [List.getD_eq_getElem (data.map f) 0 (by rw [List.length_map]; exact hi),
        List.getElem_map, List.getD_eq_getElem data 0 hi]
    have hgj : (data.map f).getD j 0 = f (data.getD j 0) := by
      rw [List.getD_eq_getElem (data.map f) 0 (by rw [List.length_map]; exact hj),
        List.getElem_map, List.getD_eq_getElem data 0 hj]
    rw [hgi, hgj]
    have hmi : data.getD i 0 ∈ data := by
      rw [List.getD_eq_getElem data 0 hi]
      exact List.getElem_mem _
    have hmj : data.getD j 0 ∈ data := by
      rw [List.getD_eq_getElem data 0 hj]
      exact List.getElem_mem _
    constructor
    · intro hlt
      rcases lt_trichotomy (data.getD i 0) (data.getD j 0) with h | h | h
      · exact h
      · rw [h] at hlt
        exact absurd hlt (lt_irrefl _)
      · exact absurd (lt_trans hlt (hmono _ hmj _ hmi h)) (lt_irrefl _)
    · exact hmono _ hmi _ hmj

theorem qsign_of_pos (q : ℚ) (h : 0 < q) : qsign q = 1 := by
  unfold qsign
  rw [if_neg (by linarith), if_neg (by linarith)]

theorem qsign_of_neg (q : ℚ) (h : q < 0) : qsign q = -1 := by
  unfold qsign
  rw [if_pos h]

theorem listPairs_mem {α : Type} (l : List α) (pr : α × α) (h : pr ∈ listPairs l) :
    ∃ i j, ∃ (hi : i < l.length) (hj : j < l.length), i < j ∧
      pr = (l.get ⟨i, hi⟩, l.get ⟨j, hj⟩) := by
  induction l with
  | nil => simp [listPairs] at h
  | cons a rest ih =>
    rw [listPairs, List.mem_append] at h
    rcases h with h | h
    · rw [List.mem_map] at h
      obtain ⟨b, hb, hpr⟩ := h
      rw [List.mem_iff_get] at hb
      obtain ⟨n, hn⟩ := hb
      refine ⟨0, n.1 + 1, by simp, ?_, Nat.succ_pos _, ?_⟩
      · simp only [List.length_cons]
        exact Nat.succ_lt_succ n.2
      · rw [← hpr, ← hn]
        rfl
    · obtain ⟨i, j, hi, hj, hij, hpr⟩ := ih h
      exact ⟨i + 1, j + 1, Nat.succ_lt_succ hi, Nat.succ_lt_succ hj,
        Nat.succ_lt_succ hij, by rw [hpr]; rfl⟩

theorem sum_map_all_one {α : Type} (ps : List α) (f : α → ℤ) (h : ∀ a ∈ ps, f a = 1) :
    (ps.map f).sum = (ps.length : ℤ) := by
  induction ps with
  | nil => simp
  | cons a rest ih =>
    rw [List.map_cons, List.sum_cons, h a (List.mem_cons_self a rest),
      ih (fun v hv => h v (List.mem_cons_of_mem a hv)), List.length_cons]
    push_cast
    ring

theorem tauStats_strict_iso (x y : List ℚ) (hlen : y.length = x.length)
    (hn2 : 2 ≤ x.length) (hndx : x.Nodup)
    (hiso : ∀ i j, i < x.length → j < x.length →
      (x.getD i 0 < x.getD j 0 ↔ y.getD i 0 < y.getD j 0)) :
    ∃ tot : ℕ, 1 ≤ tot ∧ tauStats x y = some ((tot : ℤ), tot, tot) := by
  have hzlen : (x.zip y).length = x.length := by
    rw [List.length_zip, hlen]
    omega
  have hco : ∀ (i : ℕ) (hi : i < (x.zip y).length),
      (x.zip y).get ⟨i, hi⟩ = (x.getD i 0, y.getD i 0) := by
    intro i hi
    have hix : i < x.length := by omega
    have hiy : i < y.length := by omega
    rw [List.get_eq_getElem, List.getElem_zip,
      List.getD_eq_getElem x 0 hix, List.getD_eq_getElem y 0 hiy]
  have hxne := (nodup_iff_getD x).mp hndx
  have hpair : ∀ p ∈ listPairs (x.zip y), ∃ i j, i < j ∧ j < x.length ∧
      p = ((x.getD i 0, y.getD i 0), (x.getD j 0, y.getD j 0)) := by
    intro p hp
    obtain ⟨i, j, hi, hj, hij, hpr⟩ := listPairs_mem _ p hp
    refine ⟨i, j, hij, by omega, ?_⟩
    rw [hpr, hco i hi, hco j hj]
  have hsigns : ∀ p ∈ listPairs (x.zip y),
      (fun p : (ℚ × ℚ) × (ℚ × ℚ) => qsign (p.2.1 - p.1.1) * qsign (p.2.2 - p.1.2)) p
        = 1 := by
    intro p hp
    obtain ⟨i, j, hij, hj, hpr⟩ := hpair p hp
    have hi : i < x.length := by omega
    rcases lt_trichotomy (x.getD i 0) (x.getD j 0) with h | h | h
    · have hy : y.getD i 0 < y.getD j 0 := (hiso i j hi hj).mp h
      rw [hpr]
      dsimp only
      rw [qsign_of_pos _ (by linarith), qsign_of_pos _ (by linarith)]
      ring
    · exact absurd h (hxne i j hi hj (by omega))
    · have hy : y.getD j 0 < y.getD i 0 := (hiso j i hj hi).mp h
      rw [hpr]
      dsimp only
      rw [qsign_of_neg _ (by linarith), qsign_of_neg _ (by linarith)]
      ring
  have hxtie : (listPairs (x.zip y)).countP
      (fun p : (ℚ × ℚ) × (ℚ × ℚ) => p.1.1 = p.2.1) = 0 := by
    rw [List.countP_eq_zero]
    intro p hp
    obtain ⟨i, j, hij, hj, hpr⟩ := hpair p hp
    rw [hpr]
    simpa using hxne i j (by omega) hj (by omega)
  have hytie : (listPairs (x.zip y)).countP
      (fun p : (ℚ × ℚ) × (ℚ × ℚ) => p.1.2 = p.2.2) = 0 := by
    rw [List.countP_eq_zero]
    intro p hp
    obtain ⟨i, j, hij, hj, hpr⟩ := hpair p hp
    rw [hpr]
    simp only [decide_eq_true_eq]
    intro hyeq
    have h1 : ¬ (x.getD i 0 < x.getD j 0) := by
      intro h
      have := (hiso i j (by omega) hj).mp h
      rw [hyeq] at this
      exact lt_irrefl _ this
    have h2 : ¬ (x.getD j 0 < x.getD i 0) := by
      intro h
      have := (hiso j i hj (by omega)).mp h
      rw [hyeq] at this
      exact lt_irrefl _ this
    rcases lt_trichotomy (x.getD i 0) (x.getD j 0) with h | h | h
    · exact h1 h
    · exact hxne i j (by omega) hj (by omega) h
    · exact h2 h
  have htot1 : 1 ≤ (listPairs (x.zip y)).length := by
    obtain ⟨z1, z2, zs, hz⟩ : ∃ z1 z2 zs, x.zip y = z1 :: z2 :: zs := by
      rcases hzz : x.zip y with _ | ⟨z1, tl⟩
      · rw [hzz] at hzlen
        simp at hzlen
        omega
      · rcases htl : tl with _ | ⟨z2, zs⟩
        · rw [hzz, htl] at hzlen
          simp at hzlen
          omega
        · exact ⟨z1, z2, zs, rfl⟩
    have : (z1, z2) ∈ listPairs (x.zip y) := by
      rw [hz, listPairs, List.mem_append]
      exact Or.inl (List.mem_map.mpr ⟨z2, List.mem_cons_self _ _, rfl⟩)
    have := List.length_pos.mpr (List.ne_nil_of_mem this)
    omega
  refine ⟨(listPairs (x.zip y)).length, htot1, ?_⟩
  unfold tauStats
  dsimp only
  rw [hxtie, hytie]
  rw [if_neg (by omega)]
  rw [sum_map_all_one _ _ hsigns]
  simp

/-- C6 (amended): (1) whenever `calculate_tau` returns a non-NaN value
(grouped or ungrouped), that value lies in [-1, 1]; (2) the value is
exactly 1.0 when the target and score columns have pairwise-distinct
non-negative values inducing the same row ordering, the dataset has at
least two rows, the resolved bin count is at least the non-zero count
of each column, the grouping column is absent and the target has no
cached binning.  (Without these restrictions the claim fails: constant
columns give NaN, which is outside [-1, 1], and negative values break
the order-preservation of the zero-reserved binning.) -/
theorem C6_tau_bounds_and_perfect :
    (∀ (c : CalcState) (t : String) (g : Option String) (nb : Option ℚ) (pd : String)
      (r : ℝ), (calculate_tau c t g nb pd).1 = some r → -1 ≤ r ∧ r ≤ 1) ∧
    (∀ (c : CalcState) (t pd : String) (nb : Option ℚ),
      lookupBins c.bin_mappings t = none →
      2 ≤ (getCol c.df t).length →
      (getCol c.df pd).length = (getCol c.df t).length →
      (getCol c.df t).Nodup →
      (getCol c.df pd).Nodup →
      (∀ v ∈ getCol c.df t, 0 ≤ v) →
      (∀ v ∈ getCol c.df pd, 0 ≤ v) →
      (∀ i j, i < (getCol c.df t).length → j < (getCol c.df t).length →
        ((getCol c.df t).getD i 0 < (getCol c.df t).getD j 0 ↔
          (getCol c.df pd).getD i 0 < (getCol c.df pd).getD j 0)) →
      ((nonZeroPart (getCol c.df t)).length : ℤ) ≤ resolveNumBins c t nb →
      ((nonZeroPart (getCol c.df pd)).length : ℤ) ≤ resolveNumBins c t nb →
      (calculate_tau c t none nb pd).1 = some 1) := by
  constructor
  · intro c t g nb pd r h
    cases g with
    | none =>
        exact kendalltau_bound (tau_label_bins c t (resolveNumBins c t nb)).1
          (map_to_bins (getCol c.df pd) (resolveNumBins c t nb)) r h
    | some gc =>
        exact groupedTauMean_bound _ _ _ r h
  · intro c t pd nb hmiss hlen2 hylen hndx hndy hnnx hnny hiso hnbx hnby
    have hcalc : (calculate_tau c t none nb pd).1 =
        kendalltau (tau_label_bins c t (resolveNumBins c t nb)).1
          (map_to_bins (getCol c.df pd) (resolveNumBins c t nb)) := rfl
    have hlb : (tau_label_bins c t (resolveNumBins c t nb)).1 =
        map_to_bins (getCol c.df t) (resolveNumBins c t nb) := by
      unfold tau_label_bins
      rw [hmiss]
    rw [hcalc, hlb]
    obtain ⟨hlx, hisoX⟩ := map_to_bins_orderIso (getCol c.df t) (resolveNumBins c t nb)
      hndx hnnx hlen2 hnbx
    obtain ⟨hly, hisoY⟩ := map_to_bins_orderIso (getCol c.df pd) (resolveNumBins c t nb)
      hndy hnny (by omega) hnby
    set bx := map_to_bins (getCol c.df t) (resolveNumBins c t nb) with hbx
    set bz := map_to_bins (getCol c.df pd) (resolveNumBins c t nb) with hbz
    have hbxlen : 2 ≤ bx.length := by omega
    have hbylen : bz.length = bx.length := by omega
    have hbx_nodup : bx.Nodup := by
      rw [nodup_iff_getD]
      intro i j hi hj hij heq
      have hxi : i < (getCol c.df t).length := by omega
      have hxj : j < (getCol c.df t).length := by omega
      have hxne := (nodup_iff_getD (getCol c.df t)).mp hndx i j hxi hxj hij
      rcases lt_trichotomy ((getCol c.df t).getD i 0) ((getCol c.df t).getD j 0)
        with h | h | h
      · have := (hisoX i j hxi hxj).mpr h
        rw [heq] at this
        exact lt_irrefl _ this
      · exact hxne h
      · have := (hisoX j i hxj hxi).mpr h
        rw [heq] at this
        exact lt_irrefl _ this
    have hbiso : ∀ i j, i < bx.length → j < bx.length →
        (bx.getD i 0 < bx.getD j 0 ↔ bz.getD i 0 < bz.getD j 0) := by
      intro i j hi hj
      have hxi : i < (getCol c.df t).length := by omega
      have hxj : j < (getCol c.df t).length := by omega
      rw [hisoX i j hxi hxj, hiso i j hxi hxj, ← hisoY i j (by omega) (by omega)]
    obtain ⟨tot, htot, hstats⟩ := tauStats_strict_iso bx bz hbylen hbxlen hbx_nodup hbiso
    unfold kendalltau
    rw [hstats]
    show some (((tot : ℤ) : ℝ) / (Real.sqrt tot * Real.sqrt tot)) = some 1
    rw [Real.mul_self_sqrt (by positivity)]
    congr 1
    push_cast
    rw [div_self]
    have h0 : (0 : ℝ) < (tot : ℝ) := by exact_mod_cast Nat.lt_of_lt_of_le Nat.zero_lt_one htot
    exact ne_of_gt h0

/-- C6 witness: on the dataframe with target [1, 2] and score [3, 4]
(same strict ordering, distinct, non-negative) the ungrouped tau is
exactly 1. -/
theorem C6_tau_witness :
    (calculate_tau ⟨[("t", [1, 2]), ("s", [3, 4])], []⟩ "t" none (some 100) "s").1 =
      some 1 := by
  have hx : getCol (⟨[("t", [1, 2]), ("s", [3, 4])], []⟩ : CalcState).df "t" = [1, 2] := by
    simp [getCol]
  have hy : getCol (⟨[("t", [1, 2]), ("s", [3, 4])], []⟩ : CalcState).df "s" = [3, 4] := by
    simp [getCol]
  apply C6_tau_bounds_and_perfect.2
  · rfl
  · rw [hx]
    norm_num
  · rw [hx, hy]
    norm_num
  · rw [hx]
    norm_num
  · rw [hy]
    norm_num
  · rw [hx]
    intro v hv
    rcases List.mem_cons.mp hv with h | h
    · norm_num [h]
    · norm_num [List.mem_singleton.mp h]
  · rw [hy]
    intro v hv
    rcases List.mem_cons.mp hv with h | h
    · norm_num [h]
    · norm_num [List.mem_singleton.mp h]
  · rw [hx, hy]
    intro i j hi hj
    simp only [List.length_cons, List.length_nil] at hi hj
    interval_cases i <;> interval_cases j <;> norm_num [List.getD]
  · rw [hx]
    norm_num [nonZeroPart, resolveNumBins, intTrunc]
  · rw [hy]
    norm_num [nonZeroPart, resolveNumBins, intTrunc]

/-- C6 counterexample: with the constant target column [1, 1] the
binned target is constant, every index pair is tied in it, and
`scipy.stats.kendalltau` returns NaN (modelled as `none`) — not a value
in [-1, 1] — so the unrestricted claim fails. -/
theorem C6_counterexample :
    (calculate_tau ⟨[("t", [1, 1]), ("s", [1, 2])], []⟩ "t" none (some 100) "s").1 =
      none := by
  have hbx : map_to_bins [1, 1] (intTrunc 100) = [2, 2] := by
    norm_num [map_to_bins, binCuts, nonZeroPart, np_linspace01, np_quantile, intTrunc,
      List.insertionSort, List.orderedInsert, List.range_succ,
      show Int.toNat 3 = 3 from rfl, List.countP_cons, List.countP_nil]
  have hbz : map_to_bins [1, 2] (intTrunc 100) = [1, 2] := by
    norm_num [map_to_bins, binCuts, nonZeroPart, np_linspace01, np_quantile, intTrunc,
      List.insertionSort, List.orderedInsert, List.range_succ,
      show Int.toNat 3 = 3 from rfl, List.countP_cons, List.countP_nil]
  have hcalc : (calculate_tau ⟨[("t", [1, 1]), ("s", [1, 2])], []⟩ "t" none (some 100)
      "s").1 = kendalltau (map_to_bins [1, 1] (intTrunc 100))
        (map_to_bins [1, 2] (intTrunc 100)) := by
    have hx : getCol (⟨[("t", [1, 1]), ("s", [1, 2])], []⟩ : CalcState).df "t" = [1, 1] := by
      simp [getCol]
    have hy : getCol (⟨[("t", [1, 1]), ("s", [1, 2])], []⟩ : CalcState).df "s" = [1, 2] := by
      simp [getCol]
    have h1 : (calculate_tau ⟨[("t", [1, 1]), ("s", [1, 2])], []⟩ "t" none (some 100)
        "s").1 = kendalltau
          (tau_label_bins ⟨[("t", [1, 1]), ("s", [1, 2])], []⟩ "t"
            (resolveNumBins ⟨[("t", [1, 1]), ("s", [1, 2])], []⟩ "t" (some 100))).1
          (map_to_bins (getCol (⟨[("t", [1, 1]), ("s", [1, 2])], []⟩ : CalcState).df "s")
            (resolveNumBins ⟨[("t", [1, 1]), ("s", [1, 2])], []⟩ "t" (some 100))) := rfl
    rw [h1]
    have h2 : resolveNumBins ⟨[("t", [1, 1]), ("s", [1, 2])], []⟩ "t" (some 100) =
        intTrunc 100 := rfl
    have h3 : (tau_label_bins ⟨[("t", [1, 1]), ("s", [1, 2])], []⟩ "t" (intTrunc 100)).1 =
        map_to_bins [1, 1] (intTrunc 100) := by
      unfold tau_label_bins
      rw [show lookupBins (⟨[("t", [1, 1]), ("s", [1, 2])], []⟩ :
        CalcState).bin_mappings "t" = none from rfl]
      rw [hx]
    rw [h2, h3, hy]
  rw [hcalc, hbx, hbz]
  unfold kendalltau
  have hstats : tauStats [2, 2] [1, 2] = none := by
    unfold tauStats
    dsimp only
    rw [if_pos]
    norm_num [listPairs]
  rw [hstats]
  rfl

theorem mem_uniqueKeys {G : Type} [DecidableEq G] (l : List G) (g : G) :
    g ∈ uniqueKeys l ↔ g ∈ l := by
  have H : ∀ n (l : List G), l.length = n → (g ∈ uniqueKeys l ↔ g ∈ l) := by
    intro n
    induction n using Nat.strong_induction_on with
    | _ n ih =>
      intro l hn
      cases l with
      | nil => simp [uniqueKeys]
      | cons a rest =>
        rw [uniqueKeys]
        have hlt : (rest.filter (fun x => x ≠ a)).length < n := by
          have := List.length_filter_le (fun x => decide (x ≠ a)) rest
          simp only [List.length_cons] at hn
          omega
        rw [List.mem_cons, ih _ hlt _ rfl, List.mem_filter, List.mem_cons]
        by_cases hg : g = a
        · simp [hg]
        · simp [hg]
  exact H l.length l rfl

theorem uniqueKeys_nodup {G : Type} [DecidableEq G] (l : List G) :
    (uniqueKeys l).Nodup := by
  have H : ∀ n (l : List G), l.length = n → (uniqueKeys l).Nodup := by
    intro n
    induction n using Nat.strong_induction_on with
    | _ n ih =>
      intro l hn
      cases l with
      | nil => simp [uniqueKeys]
      | cons a rest =>
        rw [uniqueKeys]
        have hlt : (rest.filter (fun x => x ≠ a)).length < n := by
          have := List.length_filter_le (fun x => decide (x ≠ a)) rest
          simp only [List.length_cons] at hn
          omega
        rw [List.nodup_cons]
        refine ⟨?_, ih _ hlt _ rfl⟩
        intro hmem
        have := (mem_uniqueKeys _ a).mp hmem
        rw [List.mem_filter] at this
        simp at this
  exact H l.length l rfl

theorem dropWhile_head_not {α : Type} (p : α → Bool) (l : List α) (x : α) (xs : List α)
    (h : l.dropWhile p = x :: xs) : ¬ p x = true := by
  induction l with
  | nil => simp [List.dropWhile] at h
  | cons a t ih =>
    rw [List.dropWhile_cons] at h
    by_cases hpa : p a = true
    · rw [if_pos hpa] at h
      exact ih h
    · rw [if_neg hpa] at h
      injection h with h1 _
      rw [← h1]
      exact hpa

theorem lexr_same_group {G V : Type} [LinearOrder G] [LinearOrder V] (ascending : Bool)
    (a b : TRow G V) (hg : a.gkey = b.gkey) :
    (lexr ascending a b ↔ valr ascending a b) := by
  unfold lexr valr dirLt
  constructor
  · intro h
    rcases h with h | ⟨_, h⟩
    · rw [hg] at h
      cases ascending <;> simp only [Bool.false_eq_true, if_false, if_true] at h <;>
        exact absurd h (lt_irrefl _)
    · exact h
  · intro h
    exact Or.inr ⟨hg, h⟩

theorem filter_orderedInsert_neg {G V : Type} [LinearOrder G] [LinearOrder V]
    (ascending : Bool) (p : TRow G V → Bool) (x : TRow G V) (hx : ¬ p x = true)
    (s : List (TRow G V)) :
    (List.orderedInsert (lexr ascending) x s).filter p = s.filter p := by
  induction s with
  | nil => simp [List.orderedInsert, hx]
  | cons b s ih =>
    rw [List.orderedInsert]
    by_cases hle : lexr ascending x b
    · rw [if_pos hle, List.filter_cons_of_neg hx]
    · rw [if_neg hle, List.filter_cons, List.filter_cons]
      by_cases hpb : p b = true
      · rw [if_pos hpb, if_pos hpb, ih]
      · rw [if_neg hpb, if_neg hpb, ih]

theorem filter_orderedInsert_pos {G V : Type} [LinearOrder G] [LinearOrder V]
    [DecidableEq G]
    (ascending : Bool) (g : G) (x : TRow G V) (hx : x.gkey = g) (s : List (TRow G V))
    (hs : s.Pairwise (lexr ascending)) :
    (List.orderedInsert (lexr ascending) x s).filter (fun r => r.gkey = g) =
      List.orderedInsert (valr ascending) x
        (s.filter (fun r => r.gkey = g)) := by
  induction s with
  | nil => simp [List.orderedInsert, hx]
  | cons b s ih =>
    rw [List.orderedInsert]
    rw [List.pairwise_cons] at hs
    by_cases hle : lexr ascending x b
    · rw [if_pos hle]
      rw [List.filter_cons_of_pos (by simp [hx])]
      have hall : ∀ c ∈ (b :: s).filter (fun r => r.gkey = g), valr ascending x c := by
        intro c hc
        rw [List.mem_filter] at hc
        have hcg : c.gkey = g := by simpa using hc.2
        have hlexc : lexr ascending x c := by
          rcases List.mem_cons.mp hc.1 with hcb | hcs
          · rw [hcb]
            exact hle
          · exact Trans.trans hle (hs.1 c hcs)
        exact (lexr_same_group ascending x c (by rw [hx, hcg])).mp hlexc
      rcases hfl : (b :: s).filter (fun r => r.gkey = g) with _ | ⟨c, t⟩
      · rw [hfl]
        rfl
      · rw [hfl, List.orderedInsert,
          if_pos (hall c (by rw [hfl]; exact List.mem_cons_self _ _))]
    · rw [if_neg hle]
      rw [List.filter_cons, List.filter_cons]
      by_cases hpb : b.gkey = g
      · rw [if_pos (by simp [hpb]), if_pos (by simp [hpb])]
        rw [List.orderedInsert]
        have hnv : ¬ valr ascending x b := by
          intro hv
          exact hle ((lexr_same_group ascending x b (by rw [hx, hpb])).mpr hv)
        rw [if_neg hnv, ih hs.2]
      · rw [if_neg (by simp [hpb]), if_neg (by simp [hpb]), ih hs.2]

theorem filter_insertionSort_group {G V : Type} [LinearOrder G] [LinearOrder V]
    [DecidableEq G]
    (ascending : Bool) (g : G) (l : List (TRow G V)) :
    (List.insertionSort (lexr ascending) l).filter (fun r => r.gkey = g) =
      List.insertionSort (valr ascending) (l.filter (fun r => r.gkey = g)) := by
  induction l with
  | nil => rfl
  | cons x l ih =>
    rw [List.insertionSort, List.filter_cons]
    by_cases hx : x.gkey = g
    · rw [filter_orderedInsert_pos ascending g x hx _
        (List.sorted_insertionSort (lexr ascending) l), ih, if_pos (by simp [hx]),
        List.insertionSort]
    · rw [filter_orderedInsert_neg ascending _ x (by simp [hx]), ih, if_neg (by simp [hx])]

theorem dirLt_asymm {α : Type} [LinearOrder α] (ascending : Bool) (a b : α)
    (h1 : dirLt ascending a b) (h2 : dirLt ascending b a) : False := by
  unfold dirLt at h1 h2
  cases ascending
  · simp only [Bool.false_eq_true, if_false] at h1 h2
    exact lt_asymm h1 h2
  · simp only [if_true] at h1 h2
    exact lt_asymm h1 h2

theorem rankKeep (kq : ℚ) (r : ℕ) : ((r : ℚ) < kq) ↔ r < ⌈kq⌉.toNat := by
  rw [show ((r : ℕ) : ℚ) = ((r : ℤ) : ℚ) by norm_cast, ← Int.lt_ceil]
  omega

theorem zip_range_filter_take {α : Type} (kq : ℚ) :
    ∀ (A : List α) (off : ℕ),
    ((A.zip (List.range' off A.length)).filter
        (fun rr => ((rr.2 : ℕ) : ℚ) < kq)).map Prod.fst = A.take (⌈kq⌉.toNat - off) := by
  intro A
  induction A with
  | nil => intro off; simp
  | cons a A ih =>
    intro off
    rw [List.length_cons, List.range'_succ, List.zip_cons_cons, List.filter_cons]
    by_cases hoff : ((off : ℕ) : ℚ) < kq
    · rw [if_pos (by simpa using hoff), List.map_cons, ih (off + 1)]
      have hofflt : off < ⌈kq⌉.toNat := (rankKeep kq off).mp hoff
      have hstep : ⌈kq⌉.toNat - off = (⌈kq⌉.toNat - (off + 1)) + 1 := by omega
      rw [hstep, List.take_succ_cons]
    · rw [if_neg (by simpa using hoff), ih (off + 1)]
      have hoffge : ¬ off < ⌈kq⌉.toNat := fun hc => hoff ((rankKeep kq off).mpr hc)
      have h1 : ⌈kq⌉.toNat - (off + 1) = 0 := by omega
      have h2 : ⌈kq⌉.toNat - off = 0 := by omega
      rw [h1, h2]
      simp

theorem lexr_true_gkey_le {G V : Type} [LinearOrder G] [LinearOrder V]
    (a b : TRow G V) (h : lexr true a b) : a.gkey ≤ b.gkey := by
  unfold lexr dirLt at h
  rcases h with h | ⟨h, _⟩
  · simp only [if_true] at h
    exact le_of_lt h
  · exact le_of_eq h

theorem uniqueKeys_pairwise_le {G : Type} [LinearOrder G] [DecidableEq G] (l : List G)
    (h : l.Pairwise (fun a b : G => a ≤ b)) :
    (uniqueKeys l).Pairwise (fun a b : G => a ≤ b) := by
  have H : ∀ n (l : List G), l.length = n → l.Pairwise (fun a b : G => a ≤ b) →
      (uniqueKeys l).Pairwise (fun a b : G => a ≤ b) := by
    intro n
    induction n using Nat.strong_induction_on with
    | _ n ih =>
      intro l hn hp
      cases l with
      | nil => simp [uniqueKeys]
      | cons a rest =>
        rw [uniqueKeys]
        rw [List.pairwise_cons] at hp
        have hlt : (rest.filter (fun x => x ≠ a)).length < n := by
          have := List.length_filter_le (fun x => decide (x ≠ a)) rest
          simp only [List.length_cons] at hn
          omega
        rw [List.pairwise_cons]
        constructor
        · intro b hb
          have hbrest : b ∈ rest :=
            List.mem_of_mem_filter ((mem_uniqueKeys _ b).mp hb)
          exact hp.1 b hbrest
        · exact ih _ hlt _ rfl (List.Pairwise.sublist (List.filter_sublist _) hp.2)
  exact H l.length l rfl h

theorem insertionSort_uniqueKeys_of_pairwise {G : Type} [LinearOrder G] [DecidableEq G]
    (l : List G) (h : l.Pairwise (fun a b : G => a ≤ b)) :
    List.insertionSort (fun a b : G => a ≤ b) (uniqueKeys l) = uniqueKeys l :=
  List.eq_of_perm_of_sorted (List.perm_insertionSort _ _)
    (List.sorted_insertionSort _ _) (uniqueKeys_pairwise_le l h)

theorem sorted_group_select {G V : Type} [LinearOrder G] [LinearOrder V] [DecidableEq G]
    (kq : ℚ) (s : List (TRow G V))
    (hs : List.Sorted (lexr true) s) :
    ((s.zip (groupRanks s)).filter (fun rr => ((rr.2 : ℕ) : ℚ) < kq)).map Prod.fst
      = (uniqueKeys (s.map (fun r => r.gkey))).flatMap
          (fun g => (s.filter (fun r => r.gkey = g)).take ⌈kq⌉.toNat) := by
  have H : ∀ n (s : List (TRow G V)), s.length = n → List.Sorted (lexr true) s →
      ((s.zip (groupRanks s)).filter (fun rr => ((rr.2 : ℕ) : ℚ) < kq)).map Prod.fst
        = (uniqueKeys (s.map (fun r => r.gkey))).flatMap
            (fun g => (s.filter (fun r => r.gkey = g)).take ⌈kq⌉.toNat) := by
    intro n
    induction n using Nat.strong_induction_on with
    | _ n ih =>
      intro s hn hsorted
      cases s with
      | nil => simp [groupRanks, value_counts, uniqueKeys]
      | cons r0 rest =>
        obtain ⟨A, hA⟩ : ∃ A, rest.takeWhile (fun r => r.gkey = r0.gkey) = A := ⟨_, rfl⟩
        obtain ⟨B, hB⟩ : ∃ B, rest.dropWhile (fun r => r.gkey = r0.gkey) = B := ⟨_, rfl⟩
        have hrest : A ++ B = rest := by
          rw [← hA, ← hB]
          exact List.takeWhile_append_dropWhile _ _
        have hAg : ∀ r ∈ A, r.gkey = r0.gkey := by
          intro r hr
          rw [← hA] at hr
          simpa using List.mem_takeWhile_imp hr
        rw [List.sorted_cons] at hsorted
        obtain ⟨hr0all, hrest_sorted⟩ := hsorted
        have hBsub : B.Sublist rest := by
          rw [← hB]
          exact List.dropWhile_sublist _
        have hBsorted : List.Pairwise (lexr true) B :=
          List.Pairwise.sublist hBsub hrest_sorted
        have hBg : ∀ b ∈ B, b.gkey ≠ r0.gkey := by
          intro b hb hbg
          rcases hBeq : B with _ | ⟨x, xs⟩
          · rw [hBeq] at hb
            simp at hb
          · have hx : ¬ (decide (x.gkey = r0.gkey)) = true :=
              dropWhile_head_not _ rest x xs (by rw [hB, hBeq])
            have hxg : x.gkey ≠ r0.gkey := by simpa using hx
            have hr0x : lexr true r0 x :=
              hr0all x (hBsub.subset (by rw [hBeq]; exact List.mem_cons_self _ _))
            have hxb : lexr true x b ∨ b = x := by
              rw [hBeq] at hb
              rcases List.mem_cons.mp hb with h | h
              · exact Or.inr h
              · rw [hBeq, List.pairwise_cons] at hBsorted
                exact Or.inl (hBsorted.1 b h)
            rcases hxb with hxb | rfl
            · have hd1 : dirLt true r0.gkey x.gkey := by
                unfold lexr at hr0x
                rcases hr0x with h | ⟨h, _⟩
                · exact h
                · exact absurd h.symm hxg
              have hd2 : dirLt true x.gkey r0.gkey := by
                unfold lexr at hxb
                rcases hxb with h | ⟨h, _⟩
                · rw [hbg] at h
                  exact h
                · rw [hbg] at h
                  exact absurd h hxg
              exact dirLt_asymm true r0.gkey x.gkey hd1 hd2
            · exact hxg hbg
        have hfil0 : (r0 :: rest).filter (fun r => r.gkey = r0.gkey) = r0 :: A := by
          rw [List.filter_cons_of_pos (by simp), ← hrest, List.filter_append,
            List.filter_eq_self.mpr (fun r hr => by simpa using hAg r hr),
            List.filter_eq_nil_iff.mpr (fun r hr => by simpa using hBg r hr),
            List.append_nil]
        have hAmap : (A.map (fun r => r.gkey)).filter (fun x => x ≠ r0.gkey) = [] := by
          rw [List.filter_eq_nil_iff]
          intro x hx
          rcases List.mem_map.mp hx with ⟨r, hr, rfl⟩
          simp [hAg r hr]
        have hBmap : (B.map (fun r => r.gkey)).filter (fun x => x ≠ r0.gkey)
            = B.map (fun r => r.gkey) := by
          rw [List.filter_eq_self]
          intro x hx
          rcases List.mem_map.mp hx with ⟨r, hr, rfl⟩
          simp [hBg r hr]
        have hfilmap : ((r0 :: rest).map (fun r => r.gkey) : List G)
            = r0.gkey :: ((A.map (fun r => r.gkey)) ++ (B.map (fun r => r.gkey))) := by
          rw [List.map_cons, ← hrest, List.map_append]
        have huniq : uniqueKeys ((r0 :: rest).map (fun r => r.gkey))
            = r0.gkey :: uniqueKeys (B.map (fun r => r.gkey)) := by
          rw [hfilmap, uniqueKeys, List.filter_append, hAmap, hBmap, List.nil_append]
        have hvc_tail : ∀ g ∈ uniqueKeys (B.map (fun r => r.gkey)),
            (r0 :: rest).filter (fun r => r.gkey = g) = B.filter (fun r => r.gkey = g) := by
          intro g hg
          have hgB : g ∈ B.map (fun r => r.gkey) := (mem_uniqueKeys _ g).mp hg
          rcases List.mem_map.mp hgB with ⟨b, hbB, rfl⟩
          have hgne : b.gkey ≠ r0.gkey := hBg b hbB
          have hAnil : A.filter (fun r => r.gkey = b.gkey) = [] := by
            rw [List.filter_eq_nil_iff]
            intro r hr
            simp only [decide_eq_true_eq]
            rw [hAg r hr]
            exact fun h => hgne h.symm
          rw [List.filter_cons_of_neg (by
              simp only [decide_eq_true_eq]
              exact fun h => hgne h.symm),
            ← hrest, List.filter_append, hAnil, List.nil_append]
        have hpw : List.Pairwise (lexr true) (r0 :: rest) :=
          List.pairwise_cons.mpr ⟨hr0all, hrest_sorted⟩
        have hkeysorted : ((r0 :: rest).map (fun r => r.gkey)).Pairwise
            (fun a b : G => a ≤ b) :=
          hpw.map _ (fun a b h => lexr_true_gkey_le a b h)
        have hkeysB : (B.map (fun r => r.gkey)).Pairwise (fun a b : G => a ≤ b) :=
          hBsorted.map _ (fun a b h => lexr_true_gkey_le a b h)
        have hkeys1 := insertionSort_uniqueKeys_of_pairwise
          ((r0 :: rest).map (fun r => r.gkey)) hkeysorted
        have hkeys2 := insertionSort_uniqueKeys_of_pairwise
          (B.map (fun r => r.gkey)) hkeysB
        have hvc : value_counts (r0 :: rest) = (r0.gkey, A.length + 1) :: value_counts B := by
          unfold value_counts
          rw [hkeys1, hkeys2, huniq, List.map_cons]
          congr 1
          · show (r0.gkey, ((r0 :: rest).filter (fun r => r.gkey = r0.gkey)).length)
              = (r0.gkey, A.length + 1)
            rw [hfil0]
            rfl
          · exact List.map_congr_left (fun g hg => by
              show (g, ((r0 :: rest).filter (fun r => r.gkey = g)).length)
                = (g, (B.filter (fun r => r.gkey = g)).length)
              rw [hvc_tail g hg])
        have hgr : groupRanks (r0 :: rest) = List.range (A.length + 1) ++ groupRanks B := by
          simp only [groupRanks, hvc, List.flatMap_cons]
        have hsplit : (r0 :: rest).zip (groupRanks (r0 :: rest))
            = ((r0 :: A).zip (List.range (A.length + 1))) ++ (B.zip (groupRanks B)) := by
          rw [hgr]
          have hcons : r0 :: rest = (r0 :: A) ++ B := by
            rw [List.cons_append, hrest]
          rw [hcons]
          exact List.zip_append (by simp)
        have hBlt : B.length < n := by
          have := hBsub.length_le
          simp only [List.length_cons] at hn
          omega
        rw [hsplit, List.filter_append, List.map_append,
          List.range_eq_range', show A.length + 1 = (r0 :: A).length from rfl,
          zip_range_filter_take kq (r0 :: A) 0, Nat.sub_zero,
          ih B.length hBlt B rfl hBsorted, huniq, List.flatMap_cons]
        congr 1
        · rw [hfil0]
        · exact (List.flatMap_congr (fun g hg => by rw [hvc_tail g hg])).symm
  exact H s.length s rfl hs

theorem pd_group_top_n_expand {G V : Type} [LinearOrder G] [LinearOrder V] [DecidableEq G]
    (data : List (TRow G V)) (kq : ℚ) :
    pd_data_group_top_n data true kq
      = (uniqueKeys ((List.insertionSort (lexr true) data).map
          (fun r => r.gkey))).flatMap
          (fun g => (List.insertionSort (valr true)
              (data.filter (fun r => r.gkey = g))).take ⌈kq⌉.toNat) := by
  unfold pd_data_group_top_n
  rw [sorted_group_select kq _ (List.sorted_insertionSort _ data)]
  exact List.flatMap_congr (fun g hg => by
    show ((List.insertionSort (lexr true) data).filter
          (fun r => r.gkey = g)).take ⌈kq⌉.toNat
      = (List.insertionSort (valr true)
          (data.filter (fun r => r.gkey = g))).take ⌈kq⌉.toNat
    rw [filter_insertionSort_group])

theorem flatMap_if_single {G β : Type} [DecidableEq G] (g : G) (E : G → List β) :
    ∀ (l : List G), l.Nodup →
    l.flatMap (fun x => if x = g then E x else []) = if g ∈ l then E g else [] := by
  intro l
  induction l with
  | nil => simp
  | cons a t ih =>
    intro hnd
    rw [List.nodup_cons] at hnd
    rw [List.flatMap_cons]
    by_cases hag : a = g
    · subst hag
      rw [if_pos rfl, if_pos (List.mem_cons_self a t)]
      have htl : t.flatMap (fun x => if x = a then E x else []) = [] := by
        rw [List.flatMap_eq_nil_iff]
        intro x hx
        have hxa : x ≠ a := fun h => hnd.1 (h ▸ hx)
        rw [if_neg hxa]
      rw [htl, List.append_nil]
    · rw [if_neg hag, List.nil_append, ih hnd.2]
      by_cases hgt : g ∈ t
      · rw [if_pos hgt, if_pos (List.mem_cons_of_mem a hgt)]
      · rw [if_neg hgt, if_neg (by
          intro h
          rcases List.mem_cons.mp h with h | h
          · exact hag h.symm
          · exact hgt h)]

theorem mem_take_sort_group {G V : Type} [LinearOrder G] [LinearOrder V] [DecidableEq G]
    (ascending : Bool) (data : List (TRow G V)) (g : G) (n : ℕ) (r : TRow G V)
    (hr : r ∈ (List.insertionSort (valr ascending)
        (data.filter (fun x => x.gkey = g))).take n) :
    r.gkey = g := by
  have h1 : r ∈ List.insertionSort (valr ascending) (data.filter (fun x => x.gkey = g)) :=
    List.take_subset _ _ hr
  have h2 : r ∈ data.filter (fun x => x.gkey = g) :=
    (List.perm_insertionSort _ _).subset h1
  simpa using (List.mem_filter.mp h2).2

theorem ref_filter_eq {G V : Type} [LinearOrder G] [LinearOrder V] [DecidableEq G]
    (data : List (TRow G V)) (ascending : Bool) (k : ℤ) (g : G) :
    (group_top_n_ref data ascending k).filter (fun r => r.gkey = g)
      = if g ∈ uniqueKeys (data.map (fun r => r.gkey))
          then (List.insertionSort (valr ascending)
              (data.filter (fun r => r.gkey = g))).take k.toNat
          else [] := by
  unfold group_top_n_ref
  rw [List.filter_flatMap]
  have hstep : ∀ g' ∈ uniqueKeys (data.map (fun r => r.gkey)),
      ((List.insertionSort (valr ascending)
          (data.filter (fun r => r.gkey = g'))).take k.toNat).filter
            (fun r => r.gkey = g)
        = if g' = g
            then (List.insertionSort (valr ascending)
                (data.filter (fun r => r.gkey = g'))).take k.toNat
            else [] := by
    intro g' hg'
    by_cases hgg : g' = g
    · rw [if_pos hgg, List.filter_eq_self.mpr]
      intro r hr
      simp [mem_take_sort_group ascending data g' k.toNat r hr, hgg]
    · rw [if_neg hgg, List.filter_eq_nil_iff.mpr]
      intro r hr
      simp [mem_take_sort_group ascending data g' k.toNat r hr, hgg]
  rw [List.flatMap_congr hstep]
  have hsingle := flatMap_if_single g
    (fun x => (List.insertionSort (valr ascending)
        (data.filter (fun r => r.gkey = x))).take k.toNat)
    (uniqueKeys (data.map (fun r => r.gkey))) (uniqueKeys_nodup _)
  exact hsingle

theorem impl_perm_ref {G V : Type} [LinearOrder G] [LinearOrder V] [DecidableEq G]
    (data : List (TRow G V)) (k : ℤ) :
    (pd_data_group_top_n data true (k : ℚ)).Perm (group_top_n_ref data true k) := by
  rw [pd_group_top_n_expand, Int.ceil_intCast]
  unfold group_top_n_ref
  refine List.Perm.flatMap_right _ ?_
  rw [List.perm_ext_iff_of_nodup (uniqueKeys_nodup _) (uniqueKeys_nodup _)]
  intro g
  rw [mem_uniqueKeys, mem_uniqueKeys]
  exact ((List.perm_insertionSort (lexr true) data).map _).mem_iff

theorem data_filter_nil_of_not_key {G V : Type} [DecidableEq G]
    (data : List (TRow G V)) (g : G)
    (hmem : g ∉ uniqueKeys (data.map (fun r => r.gkey))) :
    data.filter (fun r => r.gkey = g) = [] := by
  rw [List.filter_eq_nil_iff]
  intro r hr
  simp only [decide_eq_true_eq]
  intro hrg
  exact hmem ((mem_uniqueKeys _ g).mpr (List.mem_map.mpr ⟨r, hr, hrg⟩))

/-- C5 (amended): with pandas' `value_counts(subset, sort=False)` returning the
group keys in ascending order, the concatenated rank counters align with the
sorted table's group blocks exactly when the sort direction is ascending.  Then
the selector of `pd_data_group_top_n` is equivalent to the per-group reference:
its output is a permutation of taking, for each group, the first k value-sorted
rows; each group of size s contributes exactly min(s, k) rows; a group of size
at most k contributes a permutation of all of its rows.  For any direction,
k ≤ 0 selects nothing.  (At the descending call site the ranks misalign for
unequal group sizes; see the counterexample.) -/
theorem C5_group_top_n {G V : Type} [LinearOrder G] [LinearOrder V] [DecidableEq G]
    (data : List (TRow G V)) (k : ℤ) :
    (pd_data_group_top_n data true (k : ℚ)).Perm (group_top_n_ref data true k)
    ∧ (∀ g : G,
        ((pd_data_group_top_n data true (k : ℚ)).filter
            (fun r => r.gkey = g)).length
          = min ((data.filter (fun r => r.gkey = g)).length) k.toNat)
    ∧ (∀ g : G, (data.filter (fun r => r.gkey = g)).length ≤ k.toNat →
        ((pd_data_group_top_n data true (k : ℚ)).filter
            (fun r => r.gkey = g)).Perm (data.filter (fun r => r.gkey = g)))
    ∧ (∀ ascending : Bool, k ≤ 0 → pd_data_group_top_n data ascending (k : ℚ) = []) := by
  have hperm := impl_perm_ref data k
  refine ⟨hperm, ?_, ?_, ?_⟩
  · intro g
    have hpf := hperm.filter (fun r => decide (r.gkey = g))
    rw [hpf.length_eq, ref_filter_eq]
    by_cases hmem : g ∈ uniqueKeys (data.map (fun r => r.gkey))
    · rw [if_pos hmem, List.length_take, List.length_insertionSort]
      exact min_comm _ _
    · rw [if_neg hmem, data_filter_nil_of_not_key data g hmem]
      simp
  · intro g hle
    have hpf := hperm.filter (fun r => decide (r.gkey = g))
    rw [ref_filter_eq] at hpf
    by_cases hmem : g ∈ uniqueKeys (data.map (fun r => r.gkey))
    · rw [if_pos hmem] at hpf
      refine hpf.trans ?_
      rw [List.take_of_length_le (by rw [List.length_insertionSort]; exact hle)]
      exact List.perm_insertionSort _ _
    · rw [if_neg hmem] at hpf
      rw [data_filter_nil_of_not_key data g hmem]
      exact hpf
  · intro ascending hk
    unfold pd_data_group_top_n
    have hnil : ((List.insertionSort (lexr ascending) data).zip
        (groupRanks (List.insertionSort (lexr ascending) data))).filter
          (fun rr => ((rr.2 : ℕ) : ℚ) < (k : ℚ)) = [] := by
      rw [List.filter_eq_nil_iff]
      intro rr hrr
      simp only [decide_eq_true_eq, not_lt]
      calc (k : ℚ) ≤ 0 := by exact_mod_cast hk
        _ ≤ (rr.2 : ℚ) := Nat.cast_nonneg _
    rw [hnil, List.map_nil]

/-- Witness for C5 at a concrete three-row table over integer keys: the group 0
rows number at most k = 2, and the selector returns a permutation of all of
group 0's rows. -/
theorem C5_group_top_n_witness :
    (([(⟨0, 5, 1, 0⟩ : TRow ℤ ℤ), ⟨1, 4, 2, 1⟩, ⟨0, 3, 3, 2⟩].filter
        (fun r => r.gkey = 0)).length ≤ (2 : ℤ).toNat)
    ∧ ((pd_data_group_top_n [(⟨0, 5, 1, 0⟩ : TRow ℤ ℤ), ⟨1, 4, 2, 1⟩, ⟨0, 3, 3, 2⟩]
          true ((2 : ℤ) : ℚ)).filter (fun r => r.gkey = 0)).Perm
        ([(⟨0, 5, 1, 0⟩ : TRow ℤ ℤ), ⟨1, 4, 2, 1⟩, ⟨0, 3, 3, 2⟩].filter
          (fun r => r.gkey = 0)) :=
  ⟨by decide,
   (C5_group_top_n [(⟨0, 5, 1, 0⟩ : TRow ℤ ℤ), ⟨1, 4, 2, 1⟩, ⟨0, 3, 3, 2⟩] 2).2.2.1
     0 (by decide)⟩

/-- C5 counterexample: at the descending direction used by the only call site,
groups of unequal sizes misalign the concatenated rank counters, because
`value_counts` returns its counts in ascending key order while the table is
sorted descending.  For the table [(g=0, v=5), (g=1, v=9), (g=1, v=7)] and
k = 1, the sorted table is the two g=1 rows then the g=0 row, the rank vector
is range(1) ++ range(2) = [0, 0, 1], and `rank < 1` keeps both g=1 rows and
drops the g=0 row: group 0 (size 1) contributes 0 rows, not min(1, 1) = 1, so
the selection is not the reference's row set. -/
theorem C5_counterexample :
    ((pd_data_group_top_n
        [(⟨0, 5, 1, 0⟩ : TRow ℤ ℤ), ⟨1, 9, 2, 1⟩, ⟨1, 7, 3, 2⟩] false ((1 : ℤ) : ℚ)).filter
      (fun r => r.gkey = 0)).length = 0
    ∧ min (([(⟨0, 5, 1, 0⟩ : TRow ℤ ℤ), ⟨1, 9, 2, 1⟩, ⟨1, 7, 3, 2⟩].filter
        (fun r => r.gkey = 0)).length) (1 : ℤ).toNat = 1 := by
  constructor
  · have hsort : List.insertionSort (lexr false)
        [(⟨0, 5, 1, 0⟩ : TRow ℤ ℤ), ⟨1, 9, 2, 1⟩, ⟨1, 7, 3, 2⟩]
        = [⟨1, 9, 2, 1⟩, ⟨1, 7, 3, 2⟩, ⟨0, 5, 1, 0⟩] := by
      norm_num [List.insertionSort, List.orderedInsert, lexr, dirLt, dirLe]
    have hvc : value_counts [(⟨1, 9, 2, 1⟩ : TRow ℤ ℤ), ⟨1, 7, 3, 2⟩, ⟨0, 5, 1, 0⟩]
        = [(0, 1), (1, 2)] := by
      norm_num [value_counts, uniqueKeys, List.insertionSort, List.orderedInsert]
    have hranks : groupRanks [(⟨1, 9, 2, 1⟩ : TRow ℤ ℤ), ⟨1, 7, 3, 2⟩, ⟨0, 5, 1, 0⟩]
        = [0, 0, 1] := by
      unfold groupRanks
      rw [hvc]
      rfl
    have himpl : pd_data_group_top_n
        [(⟨0, 5, 1, 0⟩ : TRow ℤ ℤ), ⟨1, 9, 2, 1⟩, ⟨1, 7, 3, 2⟩] false ((1 : ℤ) : ℚ)
        = [⟨1, 9, 2, 1⟩, ⟨1, 7, 3, 2⟩] := by
      unfold pd_data_group_top_n
      rw [hsort, hranks]
      norm_num [List.zip_cons_cons, List.filter_cons]
    rw [himpl]
    rfl
  · decide

end Paradance
